import Mathlib

/-!
ArchGuard — rule engine and architectural graph analysis, formalised.

A shallow embedding of the core of the ArchGuard repository
(`packages/core/src/index.ts`, `packages/core/src/config.ts`,
`packages/core/src/parser.ts`, `packages/rules-react/src/index.ts` and the
CLI's `runChecks`/`buildImportGraph`), together with theorems settling the
specification claims about it.

Modelling conventions:
* JS strings are `String`, machine integers are `Nat`; JS `Set`s whose
  iteration order is never observed are membership in `List`s.
* JS objects used as string-keyed maps are insertion-ordered association
  lists (`List (String × _)`), matching `Object.keys` iteration order.
* The TypeScript compiler's parser (`ts.createSourceFile`) is an external
  collaborator per the specification; rule functions are parameterised by an
  abstract `parse : String → String → TsNode` oracle.  Node positions
  (`getStart()`) are modelled by a `pos` field holding a character offset
  into the source text, and `getLineAndCharacterOfPosition` by counting
  newline characters.
* `String.prototype.toUpperCase` on a single character is modelled by
  `Char.toUpper` (they agree on ASCII, which covers identifier characters).
-/

namespace ArchGuard

/-! ## Import graph and `detectCycles` (rules-react/src/index.ts) -/

/-- An import graph: Lean model of the plain-object adjacency map
`{ [filePath: string]: string[] }` from `@archguard/core`, as an
insertion-ordered association list (JS object keys iterate in insertion
order). -/
def ImportGraph : Type := List (String × List String)

/-- `graph[node] || []` (object lookup falling back to the empty array). -/
def ImportGraph.neighbors (g : ImportGraph) (node : String) : List String :=
  match g.find? (fun p => p.1 == node) with
  | some p => p.2
  | none => []

/-- `Object.keys(graph)`. -/
def ImportGraph.keys (g : ImportGraph) : List String :=
  g.map (·.1)

/-- The mutable state of `detectCycles`: the accumulated `cycles` array, the
global `visited` set, the recursion-stack set `recStack`, and the current
DFS `path` array. -/
structure CycState where
  cycles : List (List String)
  visited : List String
  recStack : List String
  path : List String

/-- Body of the `else if (recStack.has(neighbor))` branch of `dfs`:
`const cycleStart = path.indexOf(neighbor); if (cycleStart !== -1)
cycles.push(path.slice(cycleStart).concat([neighbor]))`. -/
def emitCycle (s : CycState) (nb : String) : CycState :=
  if nb ∈ s.path then
    { s with cycles := s.cycles ++ [s.path.drop (s.path.indexOf nb) ++ [nb]] }
  else s

/-- The recursive `dfs(node)` of `detectCycles`, with explicit fuel.  The
recursion depth is bounded by the number of distinct nodes (each recursive
call is on a node not yet visited and marks it visited), and `detectCycles`
below supplies more fuel than that bound, so the `0` case never fires on the
actual entry points. -/
def dfsVisit (g : ImportGraph) : Nat → String → CycState → CycState
  | 0, _, s => s
  | fuel + 1, node, s =>
    let s1 : CycState :=
      { s with visited := node :: s.visited,
               recStack := node :: s.recStack,
               path := s.path ++ [node] }
    let s2 := (g.neighbors node).foldl
      (fun s nb =>
        if nb ∈ s.visited then
          if nb ∈ s.recStack then emitCycle s nb else s
        else dfsVisit g fuel nb s) s1
    { s2 with recStack := s2.recStack.erase node, path := s2.path.dropLast }

/-- Top-level loop of `detectCycles`:
`for (const node of Object.keys(graph)) if (!visited.has(node)) dfs(node)`. -/
def runKeys (g : ImportGraph) (fuel : Nat) : List String → CycState → CycState
  | [], s => s
  | k :: rest, s =>
    runKeys g fuel rest (if k ∈ s.visited then s else dfsVisit g fuel k s)

/-- Fuel strictly exceeding the number of distinct nodes the traversal can
ever touch (every visited node is a key or occurs in an adjacency list). -/
def graphFuel (g : ImportGraph) : Nat :=
  g.length + (g.map (fun p => p.2.length)).sum + 1

/-- `detectCycles(graph)` from `packages/rules-react/src/index.ts`. -/
def detectCycles (g : ImportGraph) : List (List String) :=
  (runKeys g (graphFuel g) g.keys
    { cycles := [], visited := [], recStack := [], path := [] }).cycles

/-! ### DFS invariants -/

/-- Abbreviation for the neighbor-processing step of `dfs` (the body of the
`for (const neighbor of neighbors)` loop). -/
def visitStep (g : ImportGraph) (fuel : Nat) (s : CycState) (nb : String) : CycState :=
  if nb ∈ s.visited then
    if nb ∈ s.recStack then emitCycle s nb else s
  else dfsVisit g fuel nb s

theorem dfsVisit_succ (g : ImportGraph) (fuel : Nat) (node : String) (s : CycState) :
    dfsVisit g (fuel + 1) node s =
      (fun s2 => { s2 with recStack := s2.recStack.erase node, path := s2.path.dropLast })
        ((g.neighbors node).foldl (visitStep g fuel)
          { s with visited := node :: s.visited,
                   recStack := node :: s.recStack,
                   path := s.path ++ [node] }) := rfl

theorem emitCycle_path (s : CycState) (nb : String) : (emitCycle s nb).path = s.path := by
  unfold emitCycle; split <;> rfl

theorem emitCycle_recStack (s : CycState) (nb : String) :
    (emitCycle s nb).recStack = s.recStack := by
  unfold emitCycle; split <;> rfl

theorem emitCycle_visited (s : CycState) (nb : String) :
    (emitCycle s nb).visited = s.visited := by
  unfold emitCycle; split <;> rfl

/-- `dfs` restores `path` and `recStack` exactly (it pushes on entry and pops
on exit), for every fuel. -/
theorem dfsVisit_path_recStack (g : ImportGraph) :
    ∀ fuel node s, (dfsVisit g fuel node s).path = s.path ∧
      (dfsVisit g fuel node s).recStack = s.recStack := by
  intro fuel
  induction fuel with
  | zero => intro node s; exact ⟨rfl, rfl⟩
  | succ fuel ih =>
    intro node s
    have hfold : ∀ (l : List String) (t : CycState),
        (l.foldl (visitStep g fuel) t).path = t.path ∧
        (l.foldl (visitStep g fuel) t).recStack = t.recStack := by
      intro l
      induction l with
      | nil => intro t; exact ⟨rfl, rfl⟩
      | cons nb rest ihl =>
        intro t
        have hstep : (visitStep g fuel t nb).path = t.path ∧
            (visitStep g fuel t nb).recStack = t.recStack := by
          unfold visitStep
          split
          · split
            · exact ⟨emitCycle_path t nb, emitCycle_recStack t nb⟩
            · exact ⟨rfl, rfl⟩
          · exact ih nb t
        have := ihl (visitStep g fuel t nb)
        simp only [List.foldl_cons]
        exact ⟨this.1.trans hstep.1, this.2.trans hstep.2⟩
    rw [dfsVisit_succ]
    have h2 := hfold (g.neighbors node)
      { s with visited := node :: s.visited,
               recStack := node :: s.recStack,
               path := s.path ++ [node] }
    constructor
    · show ((g.neighbors node).foldl (visitStep g fuel) _).path.dropLast = s.path
      rw [h2.1]; exact List.dropLast_concat
    · show ((g.neighbors node).foldl (visitStep g fuel) _).recStack.erase node = s.recStack
      rw [h2.2]; exact List.erase_cons_head node s.recStack

/-- `dfs` only appends to `cycles` and only adds to `visited`. -/
theorem dfsVisit_mono (g : ImportGraph) :
    ∀ fuel node s, (∀ c, c ∈ s.cycles → c ∈ (dfsVisit g fuel node s).cycles) ∧
      (∀ x, x ∈ s.visited → x ∈ (dfsVisit g fuel node s).visited) := by
  intro fuel
  induction fuel with
  | zero => intro node s; exact ⟨fun _ h => h, fun _ h => h⟩
  | succ fuel ih =>
    intro node s
    have hstep : ∀ (t : CycState) (nb : String),
        (∀ c, c ∈ t.cycles → c ∈ (visitStep g fuel t nb).cycles) ∧
        (∀ x, x ∈ t.visited → x ∈ (visitStep g fuel t nb).visited) := by
      intro t nb
      unfold visitStep
      split
      · split
        · refine ⟨?_, ?_⟩
          · intro c hc
            unfold emitCycle
            split
            · exact List.mem_append_left _ hc
            · exact hc
          · intro x hx; rw [emitCycle_visited]; exact hx
        · exact ⟨fun _ h => h, fun _ h => h⟩
      · exact ih nb t
    have hfold : ∀ (l : List String) (t : CycState),
        (∀ c, c ∈ t.cycles → c ∈ (l.foldl (visitStep g fuel) t).cycles) ∧
        (∀ x, x ∈ t.visited → x ∈ (l.foldl (visitStep g fuel) t).visited) := by
      intro l
      induction l with
      | nil => intro t; exact ⟨fun _ h => h, fun _ h => h⟩
      | cons nb rest ihl =>
        intro t
        simp only [List.foldl_cons]
        exact ⟨fun c hc => (ihl _).1 c ((hstep t nb).1 c hc),
               fun x hx => (ihl _).2 x ((hstep t nb).2 x hx)⟩
    rw [dfsVisit_succ]
    have h2 := hfold (g.neighbors node)
      { s with visited := node :: s.visited,
               recStack := node :: s.recStack,
               path := s.path ++ [node] }
    exact ⟨fun c hc => h2.1 c hc, fun x hx => h2.2 x (List.mem_cons_of_mem _ hx)⟩

/-- Every node on the current DFS path has been visited. -/
theorem dfsVisit_pathInv (g : ImportGraph) :
    ∀ fuel node s, (∀ x, x ∈ s.path → x ∈ s.visited) →
      (∀ x, x ∈ (dfsVisit g fuel node s).path → x ∈ (dfsVisit g fuel node s).visited) := by
  intro fuel
  induction fuel with
  | zero => intro node s h; exact h
  | succ fuel ih =>
    intro node s hs
    have hstep : ∀ (t : CycState) (nb : String),
        (∀ x, x ∈ t.path → x ∈ t.visited) →
        (∀ x, x ∈ (visitStep g fuel t nb).path → x ∈ (visitStep g fuel t nb).visited) := by
      intro t nb ht
      unfold visitStep
      split
      · split
        · intro x hx
          rw [emitCycle_visited]
          exact ht x (by rwa [emitCycle_path] at hx)
        · exact ht
      · exact ih nb t ht
    have hfold : ∀ (l : List String) (t : CycState),
        (∀ x, x ∈ t.path → x ∈ t.visited) →
        (∀ x, x ∈ (l.foldl (visitStep g fuel) t).path →
          x ∈ (l.foldl (visitStep g fuel) t).visited) := by
      intro l
      induction l with
      | nil => intro t h; exact h
      | cons nb rest ihl =>
        intro t ht
        simp only [List.foldl_cons]
        exact ihl _ (hstep t nb ht)
    rw [dfsVisit_succ]
    have h2 := hfold (g.neighbors node)
      { s with visited := node :: s.visited,
               recStack := node :: s.recStack,
               path := s.path ++ [node] }
      (by
        intro x hx
        rcases List.mem_append.mp hx with h | h
        · exact List.mem_cons_of_mem _ (hs x h)
        · simp only [List.mem_singleton] at h
          exact h ▸ List.mem_cons_self _ _)
    intro x hx
    exact h2 x ((List.dropLast_sublist _).subset hx)

/-- With nonzero fuel, `dfs(node)` marks `node` visited. -/
theorem dfsVisit_visits_self (g : ImportGraph) (fuel : Nat) (node : String) (s : CycState) :
    node ∈ (dfsVisit g (fuel + 1) node s).visited := by
  rw [dfsVisit_succ]
  have hfold : ∀ (l : List String) (t : CycState), node ∈ t.visited →
      node ∈ (l.foldl (visitStep g fuel) t).visited := by
    intro l
    induction l with
    | nil => intro t h; exact h
    | cons nb rest ihl =>
      intro t ht
      simp only [List.foldl_cons]
      refine ihl _ ?_
      unfold visitStep
      split
      · split
        · rw [emitCycle_visited]; exact ht
        · exact ht
      · exact (dfsVisit_mono g fuel nb t).2 node ht
  exact hfold _ _ (List.mem_cons_self _ _)

theorem visitStep_path_recStack (g : ImportGraph) (fuel : Nat) (t : CycState) (nb : String) :
    (visitStep g fuel t nb).path = t.path ∧ (visitStep g fuel t nb).recStack = t.recStack := by
  unfold visitStep
  split
  · split
    · exact ⟨emitCycle_path t nb, emitCycle_recStack t nb⟩
    · exact ⟨rfl, rfl⟩
  · exact dfsVisit_path_recStack g fuel nb t

theorem visitStep_mono (g : ImportGraph) (fuel : Nat) (t : CycState) (nb : String) :
    (∀ c, c ∈ t.cycles → c ∈ (visitStep g fuel t nb).cycles) ∧
    (∀ x, x ∈ t.visited → x ∈ (visitStep g fuel t nb).visited) := by
  unfold visitStep
  split
  · split
    · refine ⟨?_, ?_⟩
      · intro c hc
        unfold emitCycle
        split
        · exact List.mem_append_left _ hc
        · exact hc
      · intro x hx; rw [emitCycle_visited]; exact hx
    · exact ⟨fun _ h => h, fun _ h => h⟩
  · exact dfsVisit_mono g fuel nb t

theorem foldl_visitStep_mono (g : ImportGraph) (fuel : Nat) :
    ∀ (l : List String) (t : CycState),
      (∀ c, c ∈ t.cycles → c ∈ (l.foldl (visitStep g fuel) t).cycles) ∧
      (∀ x, x ∈ t.visited → x ∈ (l.foldl (visitStep g fuel) t).visited) := by
  intro l
  induction l with
  | nil => intro t; exact ⟨fun _ h => h, fun _ h => h⟩
  | cons nb rest ihl =>
    intro t
    simp only [List.foldl_cons]
    exact ⟨fun c hc => (ihl _).1 c ((visitStep_mono g fuel t nb).1 c hc),
           fun x hx => (ihl _).2 x ((visitStep_mono g fuel t nb).2 x hx)⟩

theorem foldl_visitStep_path_recStack (g : ImportGraph) (fuel : Nat) :
    ∀ (l : List String) (t : CycState),
      (l.foldl (visitStep g fuel) t).path = t.path ∧
      (l.foldl (visitStep g fuel) t).recStack = t.recStack := by
  intro l
  induction l with
  | nil => intro t; exact ⟨rfl, rfl⟩
  | cons nb rest ihl =>
    intro t
    simp only [List.foldl_cons]
    exact ⟨((ihl _).1).trans (visitStep_path_recStack g fuel t nb).1,
           ((ihl _).2).trans (visitStep_path_recStack g fuel t nb).2⟩

/-- Cycles recorded by `dfs` begin and end at the same node: the pushed cycle
is `path.slice(path.indexOf(neighbor)).concat([neighbor])`, and the slice
starts at the first occurrence of `neighbor`. -/
theorem emitCycle_wf (t : CycState) (nb : String)
    (h : ∀ c ∈ t.cycles, ∃ x, c.head? = some x ∧ c.getLast? = some x) :
    ∀ c ∈ (emitCycle t nb).cycles, ∃ x, c.head? = some x ∧ c.getLast? = some x := by
  unfold emitCycle
  split
  case isTrue hmem =>
    intro c hc
    rcases List.mem_append.mp hc with h1 | h1
    · exact h c h1
    · simp only [List.mem_singleton] at h1
      subst h1
      refine ⟨nb, ?_, List.getLast?_concat _⟩
      have hlt : t.path.indexOf nb < t.path.length := List.indexOf_lt_length.mpr hmem
      rw [List.head?_append, List.head?_drop]
      have h2 : t.path[t.path.indexOf nb]? = some nb := by
        rw [List.getElem?_eq_getElem hlt]
        exact congrArg some ((List.get_eq_getElem _ _).symm.trans (List.indexOf_get hlt))
      rw [h2]
      rfl
  case isFalse => exact h

theorem visitStep_wf (g : ImportGraph) (fuel : Nat) :
    ∀ fuel' ≤ fuel, ∀ (t : CycState) (nb : String),
      (∀ c ∈ t.cycles, ∃ x, c.head? = some x ∧ c.getLast? = some x) →
      (∀ c ∈ (visitStep g fuel' t nb).cycles, ∃ x, c.head? = some x ∧ c.getLast? = some x) := by
  induction fuel with
  | zero =>
    intro fuel' hle t nb ht
    have h0 : fuel' = 0 := Nat.le_zero.mp hle
    subst h0
    unfold visitStep
    split
    · split
      · exact emitCycle_wf t nb ht
      · exact ht
    · exact ht
  | succ fuel ih =>
    intro fuel' hle t nb ht
    unfold visitStep
    split
    · split
      · exact emitCycle_wf t nb ht
      · exact ht
    · -- recursive dfs call at fuel'
      rcases Nat.eq_zero_or_pos fuel' with h0 | hpos
      · subst h0; exact ht
      · obtain ⟨f, rfl⟩ := Nat.exists_eq_succ_of_ne_zero (Nat.pos_iff_ne_zero.mp hpos)
        rw [dfsVisit_succ]
        have hfold : ∀ (l : List String) (u : CycState),
            (∀ c ∈ u.cycles, ∃ x, c.head? = some x ∧ c.getLast? = some x) →
            (∀ c ∈ (l.foldl (visitStep g f) u).cycles,
              ∃ x, c.head? = some x ∧ c.getLast? = some x) := by
          intro l
          induction l with
          | nil => intro u h; exact h
          | cons nb2 rest ihl =>
            intro u hu
            simp only [List.foldl_cons]
            exact ihl _ (ih f (by omega) u nb2 hu)
        exact hfold _ _ ht

/-- All cycles produced by `dfs` (at any fuel) begin and end at the same
node. -/
theorem dfsVisit_wf (g : ImportGraph) (fuel : Nat) (node : String) (s : CycState)
    (hs : ∀ c ∈ s.cycles, ∃ x, c.head? = some x ∧ c.getLast? = some x) :
    ∀ c ∈ (dfsVisit g fuel node s).cycles, ∃ x, c.head? = some x ∧ c.getLast? = some x := by
  cases fuel with
  | zero => exact hs
  | succ f =>
    rw [dfsVisit_succ]
    have hfold : ∀ (l : List String) (u : CycState),
        (∀ c ∈ u.cycles, ∃ x, c.head? = some x ∧ c.getLast? = some x) →
        (∀ c ∈ (l.foldl (visitStep g f) u).cycles,
          ∃ x, c.head? = some x ∧ c.getLast? = some x) := by
      intro l
      induction l with
      | nil => intro u h; exact h
      | cons nb rest ihl =>
        intro u hu
        simp only [List.foldl_cons]
        exact ihl _ (visitStep_wf g f f (Nat.le_refl f) u nb hu)
    exact hfold _ _ hs

/-- If the neighbor list still to be processed contains `a`, `a` is visited,
on the recursion stack, and sits at the end of the current path (its only
occurrence), then the loop records the self-loop cycle `[a, a]`. -/
theorem foldl_selfloop_emit (g : ImportGraph) (fuel : Nat) (a : String) :
    ∀ (l : List String) (t : CycState), a ∈ l → a ∈ t.visited → a ∈ t.recStack →
      (∃ p, t.path = p ++ [a] ∧ a ∉ p) →
      [a, a] ∈ (l.foldl (visitStep g fuel) t).cycles := by
  intro l
  induction l with
  | nil => intro t h; exact absurd h (List.not_mem_nil a)
  | cons nb rest ihl =>
    intro t hal hv hr hp
    simp only [List.foldl_cons]
    by_cases hnb : nb = a
    · subst hnb
      have hstep : [nb, nb] ∈ (visitStep g fuel t nb).cycles := by
        unfold visitStep
        rw [if_pos hv, if_pos hr]
        rcases hp with ⟨p, hpath, hnp⟩
        have hmem : nb ∈ t.path := by
          rw [hpath]; exact List.mem_append_right _ (List.mem_singleton_self _)
        unfold emitCycle
        rw [if_pos hmem]
        have hdrop : t.path.drop (t.path.indexOf nb) = [nb] := by
          rw [hpath, List.indexOf_append_of_not_mem hnp, List.indexOf_cons_self,
            Nat.add_zero, List.drop_left]
        simp only [hdrop]
        exact List.mem_append_right _ (List.mem_singleton_self _)
      exact (foldl_visitStep_mono g fuel rest _).1 _ hstep
    · have ha' : a ∈ rest := by
        rcases List.mem_cons.mp hal with h | h
        · exact absurd h.symm hnb
        · exact h
      refine ihl _ ha' ((visitStep_mono g fuel t nb).2 a hv) ?_ ?_
      · rw [(visitStep_path_recStack g fuel t nb).2]; exact hr
      · rw [(visitStep_path_recStack g fuel t nb).1]; exact hp

/-- If `a` has a self-loop edge and the DFS marks `a` visited, it also
records the cycle `[a, a]` (together with the neighbor-loop version). -/
theorem dfsVisit_selfloop (g : ImportGraph) (a : String) (hloop : a ∈ g.neighbors a) :
    ∀ fuel node s, (∀ x, x ∈ s.path → x ∈ s.visited) → a ∉ s.visited →
      a ∈ (dfsVisit g fuel node s).visited →
      [a, a] ∈ (dfsVisit g fuel node s).cycles := by
  intro fuel
  induction fuel with
  | zero => intro node s _ hnv hv; exact absurd hv hnv
  | succ fuel ih =>
    intro node s hinv hnv hv
    have hfold : ∀ (l : List String) (t : CycState),
        (∀ x, x ∈ t.path → x ∈ t.visited) → a ∉ t.visited →
        a ∈ (l.foldl (visitStep g fuel) t).visited →
        [a, a] ∈ (l.foldl (visitStep g fuel) t).cycles := by
      intro l
      induction l with
      | nil => intro t _ hnv hv; exact absurd hv hnv
      | cons nb rest ihl =>
        intro t ht hnvt hvt
        simp only [List.foldl_cons] at hvt ⊢
        by_cases hcase : a ∈ (visitStep g fuel t nb).visited
        · have hcyc : [a, a] ∈ (visitStep g fuel t nb).cycles := by
            unfold visitStep at hcase ⊢
            by_cases h1 : nb ∈ t.visited
            · rw [if_pos h1] at hcase ⊢
              by_cases h2 : nb ∈ t.recStack
              · rw [if_pos h2] at hcase
                rw [emitCycle_visited] at hcase
                exact absurd hcase hnvt
              · rw [if_neg h2] at hcase
                exact absurd hcase hnvt
            · rw [if_neg h1] at hcase ⊢
              exact ih nb t ht hnvt hcase
          exact (foldl_visitStep_mono g fuel rest _).1 _ hcyc
        · refine ihl _ ?_ hcase hvt
          intro x hx
          have hpx : x ∈ t.path := by
            rw [(visitStep_path_recStack g fuel t nb).1] at hx; exact hx
          exact (visitStep_mono g fuel t nb).2 x (ht x hpx)
    rw [dfsVisit_succ] at hv ⊢
    by_cases hna : node = a
    · subst hna
      refine (foldl_selfloop_emit g fuel node (g.neighbors node) _ hloop
        (List.mem_cons_self _ _) (List.mem_cons_self _ _) ?_)
      refine ⟨s.path, rfl, ?_⟩
      intro hmem
      exact hnv (hinv node hmem)
    · refine hfold (g.neighbors node) _ ?_ ?_ hv
      · intro x hx
        rcases List.mem_append.mp hx with h | h
        · exact List.mem_cons_of_mem _ (hinv x h)
        · simp only [List.mem_singleton] at h
          exact h ▸ List.mem_cons_self _ _
      · intro hmem
        rcases List.mem_cons.mp hmem with h | h
        · exact hna h.symm
        · exact hnv h

theorem runKeys_cycles_mono (g : ImportGraph) (fuel : Nat) :
    ∀ (l : List String) (s : CycState) (c : List String),
      c ∈ s.cycles → c ∈ (runKeys g fuel l s).cycles := by
  intro l
  induction l with
  | nil => intro s c hc; exact hc
  | cons k rest ihl =>
    intro s c hc
    unfold runKeys
    split
    · exact ihl _ c hc
    · exact ihl _ c ((dfsVisit_mono g fuel k s).1 c hc)

theorem runKeys_wf (g : ImportGraph) (fuel : Nat) :
    ∀ (l : List String) (s : CycState),
      (∀ c ∈ s.cycles, ∃ x, c.head? = some x ∧ c.getLast? = some x) →
      (∀ c ∈ (runKeys g fuel l s).cycles, ∃ x, c.head? = some x ∧ c.getLast? = some x) := by
  intro l
  induction l with
  | nil => intro s h; exact h
  | cons k rest ihl =>
    intro s hs
    unfold runKeys
    split
    · exact ihl _ hs
    · exact ihl _ (dfsVisit_wf g fuel k s hs)

/-- Top-level loop: if a node with a self-loop edge occurs among the keys
still to be processed, the self-loop cycle `[a, a]` ends up recorded. -/
theorem runKeys_selfloop (g : ImportGraph) (fuel : Nat) (a : String)
    (hloop : a ∈ g.neighbors a) (hfuel : 0 < fuel) :
    ∀ (l : List String) (s : CycState),
      (∀ x, x ∈ s.path → x ∈ s.visited) →
      (a ∈ s.visited → [a, a] ∈ s.cycles) →
      a ∈ l →
      [a, a] ∈ (runKeys g fuel l s).cycles := by
  obtain ⟨f, rfl⟩ := Nat.exists_eq_succ_of_ne_zero (Nat.pos_iff_ne_zero.mp hfuel)
  intro l
  induction l with
  | nil => intro s _ _ h; exact absurd h (List.not_mem_nil a)
  | cons k rest ihl =>
    intro s hinv hq hal
    unfold runKeys
    split
    case isTrue hkv =>
      by_cases hka : k = a
      · subst hka
        exact runKeys_cycles_mono g (f + 1) rest s _ (hq hkv)
      · have ha' : a ∈ rest := by
          rcases List.mem_cons.mp hal with h | h
          · exact absurd h.symm hka
          · exact h
        exact ihl s hinv hq ha'
    case isFalse hkv =>
      by_cases hka : k = a
      · subst hka
        have hvis : k ∈ (dfsVisit g (f + 1) k s).visited := dfsVisit_visits_self g f k s
        have hcyc : [k, k] ∈ (dfsVisit g (f + 1) k s).cycles :=
          dfsVisit_selfloop g k hloop (f + 1) k s hinv hkv hvis
        exact runKeys_cycles_mono g (f + 1) rest _ _ hcyc
      · have ha' : a ∈ rest := by
          rcases List.mem_cons.mp hal with h | h
          · exact absurd h.symm hka
          · exact h
        refine ihl _ (dfsVisit_pathInv g (f + 1) k s hinv) ?_ ha'
        intro hva
        by_cases hsa : a ∈ s.visited
        · exact (dfsVisit_mono g (f + 1) k s).1 _ (hq hsa)
        · exact dfsVisit_selfloop g a hloop (f + 1) k s hinv hsa hva

/-- Claim C1, amended.  `detectCycles` returns a sequence of cycles each of
which is an ordered sequence of file paths starting and ending at the same
node, and a self-loop edge on a graph node is always detected and returned
as the cycle `[a, a]` (the length-one cycle written with its endpoint
repeated).  The original claim's further assertion that *every* simple cycle
of the graph appears at least once is refuted by
`detectCycles_missing_simple_cycle` below. -/
theorem detectCycles_endpoints_and_selfloops (g : ImportGraph) :
    (∀ c ∈ detectCycles g, ∃ x, c.head? = some x ∧ c.getLast? = some x) ∧
    (∀ a, a ∈ g.keys → a ∈ g.neighbors a → [a, a] ∈ detectCycles g) := by
  constructor
  · exact runKeys_wf g (graphFuel g) g.keys _ (by intro c hc; exact absurd hc (List.not_mem_nil c))
  · intro a hak hloop
    refine runKeys_selfloop g (graphFuel g) a hloop ?_ g.keys _ ?_ ?_ hak
    · unfold graphFuel; omega
    · intro x hx; exact absurd hx (List.not_mem_nil x)
    · intro h; exact absurd h (List.not_mem_nil a)

/-- Counterexample graph for claim C1: `u → x`, `u → v`, `x → v`, `v → u`.
Its simple cycles are `u→x→v→u` and `u→v→u`. -/
def gMiss : ImportGraph :=
  [("u", ["x", "v"]), ("x", ["v"]), ("v", ["u"])]

/-- Claim C1, counterexample: the DFS misses the simple cycle `u→v→u` of
`gMiss` (both of its edges are in the graph, yet no corresponding cycle is
returned — the only cycle returned is `u→x→v→u`).  When the back edge
`v → u` is examined, `v` was reached through `x`, so the recorded path slice
is `[u, x, v, u]`; the later edge `u → v` finds `v` already visited and off
the recursion stack, and nothing is recorded for the two-node cycle. -/
theorem detectCycles_missing_simple_cycle :
    ("v" ∈ gMiss.neighbors "u" ∧ "u" ∈ gMiss.neighbors "v") ∧
    detectCycles gMiss = [["u", "x", "v", "u"]] ∧
    ["u", "v", "u"] ∉ detectCycles gMiss := by decide

/-- Witness for `detectCycles_endpoints_and_selfloops` at the one-node
self-loop graph. -/
theorem detectCycles_selfloop_witness :
    ("a.ts" ∈ ImportGraph.keys [("a.ts", ["a.ts"])] ∧
      "a.ts" ∈ ImportGraph.neighbors [("a.ts", ["a.ts"])] "a.ts") ∧
    ["a.ts", "a.ts"] ∈ detectCycles [("a.ts", ["a.ts"])] :=
  ⟨⟨by decide, by decide⟩,
    (detectCycles_endpoints_and_selfloops [("a.ts", ["a.ts"])]).2 "a.ts" (by decide) (by decide)⟩

/-! ## Core data model (packages/core/src/index.ts) -/

/-- `Violation` from `@archguard/core`. -/
structure Violation where
  file : String
  line : Nat
  column : Nat
  message : String
  rule : String
deriving DecidableEq

/-- `RuleResult` from `@archguard/core`. -/
structure RuleResult where
  violations : List Violation
  passed : Bool
deriving DecidableEq

/-- `LayerConfig` from `@archguard/core`. -/
structure LayerConfig where
  allowedImports : List String
deriving DecidableEq

/-- The fixed record of rule toggles inside `ArchitectureConfig`.  The
program only ever reads the toggles through JS truthiness tests, so they are
modelled as `Bool` (absent/`null` count as `false`, see
`validateArchitectureConfig`). -/
structure RuleToggles where
  noBusinessLogicInComponents : Bool
  noDataFetchingInUI : Bool
  enforceFeatureBoundaries : Bool
  noCircularLayerDeps : Bool
deriving DecidableEq

/-- `ArchitectureConfig` from `@archguard/core`; the `layers` object is an
insertion-ordered association list. -/
structure ArchitectureConfig where
  layers : List (String × LayerConfig)
  rules : RuleToggles
deriving DecidableEq

/-- `ImportInfo` from `@archguard/core` (`from` is a Lean keyword, hence the
guillemets). -/
structure ImportInfo where
  «from» : String
  specifiers : List String
  isTypeOnly : Bool
deriving DecidableEq

/-- Model of the TypeScript AST nodes the rules inspect.  Each constructor
carries the node kinds' data the code reads plus the `getStart()` character
offset `pos` and the remaining `ts.forEachChild` children.  For
`ifStmt` the scrutinised `node.expression` is kept separately (it is also
the first traversed child). -/
inductive TsNode where
  | importDecl (moduleSpecifier : Option String) (isTypeOnly : Bool)
      (boundNames : List String) (pos : Nat) (children : List TsNode)
  | functionDecl (name : Option String) (pos : Nat) (children : List TsNode)
  | functionExpr (name : Option String) (pos : Nat) (children : List TsNode)
  | arrowFun (pos : Nat) (children : List TsNode)
  | forStmt (pos : Nat) (children : List TsNode)
  | forInStmt (pos : Nat) (children : List TsNode)
  | forOfStmt (pos : Nat) (children : List TsNode)
  | ifStmt (cond : TsNode) (pos : Nat) (children : List TsNode)
  | ident (name : String) (pos : Nat)
  | propAccess (pos : Nat) (children : List TsNode)
  | binaryExpr (pos : Nat) (children : List TsNode)
  | other (pos : Nat) (children : List TsNode)

/-- `RuleContext` from `@archguard/core`. -/
structure RuleContext where
  filePath : String
  sourceCode : String
  ast : TsNode
  imports : List ImportInfo
  architecture : ArchitectureConfig
  importGraph : Option ImportGraph

/-! ## Cycle rule (`createCircularDependencyRule`) -/

/-- Computable strict lexicographic comparison of character lists (the
comparison JS `<` performs on strings, written so that it reduces in the
kernel; `String`'s own `<` is implemented by the well-founded-recursive
`String.ltb`). -/
def jsLtb : List Char → List Char → Bool
  | [], [] => false
  | [], _ :: _ => true
  | _ :: _, [] => false
  | a :: as, b :: bs => if a < b then true else if b < a then false else jsLtb as bs

theorem jsLtb_iff_lt : ∀ a b : List Char, jsLtb a b = true ↔ a < b := by
  intro a
  induction a with
  | nil =>
    intro b
    cases b with
    | nil =>
      simp only [jsLtb, Bool.false_eq_true, false_iff]
      intro h; cases h
    | cons c cs =>
      simp only [jsLtb, true_iff]
      exact List.Lex.nil
  | cons a as ih =>
    intro b
    cases b with
    | nil =>
      simp only [jsLtb, Bool.false_eq_true, false_iff]
      intro h; cases h
    | cons c cs =>
      simp only [jsLtb]
      by_cases h1 : a < c
      · simp only [if_pos h1, true_iff]
        exact List.Lex.rel h1
      · rw [if_neg h1]
        by_cases h2 : c < a
        · simp only [if_pos h2, Bool.false_eq_true, false_iff]
          intro h
          cases h with
          | rel h => exact h1 h
          | cons h => exact lt_irrefl _ h2
        · have hac : a = c := le_antisymm (le_of_not_lt h2) (le_of_not_lt h1)
          subst hac
          rw [if_neg h2, ih]
          constructor
          · intro h; exact List.Lex.cons h
          · intro h
            cases h with
            | rel h => exact absurd h h1
            | cons h => exact h

/-- JS `<=` on strings (as a computable function; equivalent to `String`'s
`≤` by `jsStrLe_iff_le`). -/
def jsStrLe (s t : String) : Bool := ! jsLtb t.data s.data

theorem jsStrLe_iff_le (s t : String) : jsStrLe s t = true ↔ s ≤ t := by
  have h1 : jsLtb t.data s.data = true ↔ t < s := by
    rw [jsLtb_iff_lt]
    exact String.lt_iff_toList_lt.symm
  unfold jsStrLe
  cases hb : jsLtb t.data s.data with
  | true =>
    simp only [Bool.not_true, Bool.false_eq_true, false_iff]
    exact fun hle => absurd (h1.mp hb) (not_lt.mpr hle)
  | false =>
    simp only [Bool.not_false, true_iff]
    refine not_lt.mp (fun hc => ?_)
    have h2 := h1.mpr hc
    rw [hb] at h2
    exact absurd h2 Bool.false_ne_true

/-- Insertion of a string into a sorted list, for `jsSortStrings`. -/
def jsOrderedInsert (a : String) : List String → List String
  | [] => [a]
  | b :: l => if jsStrLe a b then a :: b :: l else b :: jsOrderedInsert a l

/-- JS `Array.prototype.sort()` on an array of strings: the sorted
permutation under lexicographic order.  (Equal strings are identical, so the
sorted permutation is unique and the choice of sorting algorithm is
irrelevant to the result.) -/
def jsSortStrings : List String → List String
  | [] => []
  | a :: l => jsOrderedInsert a (jsSortStrings l)

theorem mem_jsOrderedInsert (x a : String) :
    ∀ l, x ∈ jsOrderedInsert a l ↔ x = a ∨ x ∈ l := by
  intro l
  induction l with
  | nil => simp [jsOrderedInsert]
  | cons b l ih =>
    unfold jsOrderedInsert
    split
    · simp
    · simp only [List.mem_cons, ih]
      tauto

theorem mem_jsSortStrings (x : String) : ∀ l, x ∈ jsSortStrings l ↔ x ∈ l := by
  intro l
  induction l with
  | nil => simp [jsSortStrings]
  | cons a l ih =>
    unfold jsSortStrings
    rw [mem_jsOrderedInsert]
    simp [ih]

/-- The head of the JS sort is a lower bound of the original list. -/
theorem jsSortStrings_head?_min :
    ∀ (l : List String) (m : String), (jsSortStrings l).head? = some m →
      ∀ x ∈ l, m ≤ x := by
  intro l
  induction l with
  | nil => intro m h; exact absurd h (by simp [jsSortStrings])
  | cons a l ih =>
    intro m hm x hx
    unfold jsSortStrings at hm
    rcases hs : jsSortStrings l with _ | ⟨b, t⟩
    · rw [hs] at hm
      simp only [jsOrderedInsert, List.head?_cons, Option.some.injEq] at hm
      subst hm
      rcases List.mem_cons.mp hx with h | h
      · rw [h]
      · rw [← mem_jsSortStrings x l, hs] at h
        exact absurd h (List.not_mem_nil x)
    · rw [hs] at hm
      unfold jsOrderedInsert at hm
      by_cases hab : jsStrLe a b = true
      · rw [if_pos hab, List.head?_cons, Option.some.injEq] at hm
        subst hm
        rcases List.mem_cons.mp hx with h | h
        · rw [h]
        · exact ((jsStrLe_iff_le a b).mp hab).trans
            (ih b (by rw [hs, List.head?_cons]) x h)
      · rw [if_neg hab, List.head?_cons, Option.some.injEq] at hm
        subst hm
        rcases List.mem_cons.mp hx with h | h
        · rw [h]
          exact le_of_not_le (fun hc => hab ((jsStrLe_iff_le a b).mpr hc))
        · exact ih b (by rw [hs, List.head?_cons]) x h

/-- The head of the JS sort of a string array is exactly the
lexicographically smallest element. -/
theorem jsSortStrings_head?_eq_some_iff (l : List String) (m : String) :
    (jsSortStrings l).head? = some m ↔ m ∈ l ∧ ∀ x ∈ l, m ≤ x := by
  constructor
  · intro hh
    refine ⟨?_, jsSortStrings_head?_min l m hh⟩
    have : m ∈ jsSortStrings l := by
      match hs : jsSortStrings l with
      | [] => rw [hs] at hh; exact absurd hh (by simp)
      | b :: t =>
        rw [hs] at hh
        simp only [List.head?_cons, Option.some.injEq] at hh
        exact hh ▸ List.mem_cons_self _ _
    exact (mem_jsSortStrings m l).mp this
  · rintro ⟨hm, hmin⟩
    have hne : jsSortStrings l ≠ [] := by
      intro hc
      rw [← mem_jsSortStrings m l, hc] at hm
      exact List.not_mem_nil m hm
    match hs : jsSortStrings l with
    | [] => exact absurd hs hne
    | b :: t =>
      have hbl : b ∈ l := (mem_jsSortStrings b l).mp (hs ▸ List.mem_cons_self _ _)
      have h1 : m ≤ b := hmin b hbl
      have h2 : b ≤ m := jsSortStrings_head?_min l b (by rw [hs]; rfl) m hm
      simp [le_antisymm h2 h1]

/-- The `Violation` pushed by `createCircularDependencyRule` for a cycle. -/
def mkCycleViolation (filePath : String) (cycle : List String) : Violation :=
  { file := filePath
    line := 1
    column := 1
    message := "Circular dependency detected: " ++ String.intercalate " → " cycle ++
      ". Break the cycle by extracting shared code to a common layer or using dependency inversion."
    rule := "no-circular-layer-deps" }

/-- `createCircularDependencyRule().execute(context)` from
`packages/rules-react/src/index.ts`. -/
def createCircularDependencyRuleExecute (context : RuleContext) : RuleResult :=
  if !context.architecture.rules.noCircularLayerDeps then
    { violations := [], passed := true }
  else
    match context.importGraph with
    | none => { violations := [], passed := true }
    | some graph =>
      let cycles := detectCycles graph
      let violations := cycles.foldl
        (fun acc cycle =>
          let sortedCycle := jsSortStrings cycle
          if sortedCycle.head? = some context.filePath then
            acc ++ [mkCycleViolation context.filePath cycle]
          else acc) []
      { violations := violations, passed := violations.isEmpty }

theorem foldl_guard_filter_map {α : Type} (p : α → Prop) [DecidablePred p]
    (f : α → Violation) :
    ∀ (l : List α) (acc : List Violation),
      l.foldl (fun acc c => if p c then acc ++ [f c] else acc) acc =
        acc ++ (l.filter (fun c => decide (p c))).map f := by
  intro l
  induction l with
  | nil => intro acc; simp
  | cons c rest ihl =>
    intro acc
    simp only [List.foldl_cons]
    by_cases hc : p c
    · rw [if_pos hc, ihl, List.filter_cons_of_pos (by simpa using hc)]
      simp
    · rw [if_neg hc, ihl, List.filter_cons_of_neg (by simpa using hc)]

/-- Claim C3.  With the toggle on and a graph present, the cycle rule's
execution on a file emits exactly one violation for each raw cycle whose
lexicographically smallest path equals the context's file (this is the
"canonical reporter" election — all other per-file executions skip that
cycle), and every emitted violation is pinned at line 1, column 1 of that
file, with the full cycle path joined into the message (via
`mkCycleViolation`). -/
theorem circularRule_min_election (context : RuleContext) (g : ImportGraph)
    (htog : context.architecture.rules.noCircularLayerDeps = true)
    (hg : context.importGraph = some g) :
    (createCircularDependencyRuleExecute context).violations =
      ((detectCycles g).filter
        (fun c => decide (context.filePath ∈ c ∧ ∀ x ∈ c, context.filePath ≤ x))).map
        (mkCycleViolation context.filePath) ∧
    ∀ v ∈ (createCircularDependencyRuleExecute context).violations,
      v.file = context.filePath ∧ v.line = 1 ∧ v.column = 1 := by
  have hexec : (createCircularDependencyRuleExecute context).violations =
      ((detectCycles g).filter
        (fun c => decide (context.filePath ∈ c ∧ ∀ x ∈ c, context.filePath ≤ x))).map
        (mkCycleViolation context.filePath) := by
    unfold createCircularDependencyRuleExecute
    rw [htog, hg]
    simp only [Bool.not_true, Bool.false_eq_true, if_false]
    show List.foldl _ [] (detectCycles g) = _
    rw [foldl_guard_filter_map
      (fun cycle => (jsSortStrings cycle).head? = some context.filePath)
      (mkCycleViolation context.filePath) (detectCycles g) []]
    rw [List.nil_append]
    congr 1
    apply List.filter_congr
    intro c _
    rw [decide_eq_decide]
    exact jsSortStrings_head?_eq_some_iff c context.filePath
  refine ⟨hexec, ?_⟩
  intro v hv
  rw [hexec] at hv
  rcases List.mem_map.mp hv with ⟨c, _, rfl⟩
  exact ⟨rfl, rfl, rfl⟩

/-- The two-file mutual-import scenario of the claim and of testable
property 8.3: `a.ts` and `b.ts` import each other. -/
def gMutual : ImportGraph := [("a.ts", ["b.ts"]), ("b.ts", ["a.ts"])]

/-- A minimal context for file `fp` in a run whose import graph is `g` and
whose only enabled rule is the cycle rule. -/
def cycCtx (fp : String) (g : ImportGraph) : RuleContext :=
  { filePath := fp
    sourceCode := ""
    ast := TsNode.other 0 []
    imports := []
    architecture :=
      { layers := []
        rules :=
          { noBusinessLogicInComponents := false
            noDataFetchingInUI := false
            enforceFeatureBoundaries := false
            noCircularLayerDeps := true } }
    importGraph := some g }

/-- Witness for `circularRule_min_election`: in the mutual-import scenario
the election formula holds for `a.ts`, and concretely the whole run emits
exactly one cycle violation — on `a.ts`, the lexicographically smaller file
— and none on `b.ts`. -/
theorem circularRule_min_election_witness :
    ((cycCtx "a.ts" gMutual).architecture.rules.noCircularLayerDeps = true ∧
      (cycCtx "a.ts" gMutual).importGraph = some gMutual) ∧
    ((createCircularDependencyRuleExecute (cycCtx "a.ts" gMutual)).violations =
      ((detectCycles gMutual).filter
        (fun c => decide ((cycCtx "a.ts" gMutual).filePath ∈ c ∧
          ∀ x ∈ c, (cycCtx "a.ts" gMutual).filePath ≤ x))).map
        (mkCycleViolation (cycCtx "a.ts" gMutual).filePath) ∧
      ∀ v ∈ (createCircularDependencyRuleExecute (cycCtx "a.ts" gMutual)).violations,
        v.file = (cycCtx "a.ts" gMutual).filePath ∧ v.line = 1 ∧ v.column = 1) ∧
    ((createCircularDependencyRuleExecute (cycCtx "a.ts" gMutual)).violations.length = 1 ∧
      (createCircularDependencyRuleExecute (cycCtx "b.ts" gMutual)).violations.length = 0) :=
  ⟨⟨rfl, rfl⟩, circularRule_min_election (cycCtx "a.ts" gMutual) gMutual rfl rfl, by decide⟩

/-! ## Component classifier (`isComponentFunction`) -/

/-- `ts.isFunctionDeclaration`. -/
def isFunctionDeclaration : TsNode → Bool
  | .functionDecl _ _ _ => true
  | _ => false

/-- `ts.isFunctionExpression`. -/
def isFunctionExpression : TsNode → Bool
  | .functionExpr _ _ _ => true
  | _ => false

/-- `ts.isArrowFunction`. -/
def isArrowFunction : TsNode → Bool
  | .arrowFun _ _ => true
  | _ => false

/-- The `name` property of a function declaration node (`undefined` when the
declaration is anonymous, and on other node kinds). -/
def functionDeclName : TsNode → Option String
  | .functionDecl name _ _ => name
  | _ => none

/-- `name[0] === name[0].toUpperCase()` (on a nonempty name): the first
character is unchanged by uppercase conversion. -/
def jsStartsUppercase (nm : String) : Bool :=
  match nm.data with
  | [] => false
  | c :: _ => c.toUpper == c

/-- `name.startsWith("use")`, computed on the character lists. -/
def jsStartsWith (s pre : String) : Bool :=
  pre.data.isPrefixOf s.data

/-- `isComponentFunction(node)` from `packages/rules-react/src/index.ts`:
note that the `name` is only read off *function declarations*
(`ts.isFunctionDeclaration(node) && node.name ? node.name.text : null`);
for function expressions and arrow functions it is always `null`. -/
def isComponentFunction (node : TsNode) : Bool :=
  if !(isFunctionDeclaration node || isFunctionExpression node || isArrowFunction node) then
    false
  else
    let name : Option String :=
      if isFunctionDeclaration node then functionDeclName node else none
    match name with
    | some nm =>
      if nm ≠ "" then jsStartsUppercase nm || jsStartsWith nm "use"
      else false
    | none => false

/-- Claim C2's classifier, modelled from the spec's words: a function node
in declared, expression, or arrow form qualifies iff it has a name and that
name starts with an uppercase letter or with the literal prefix `use`.  (A
named function expression carries its name on the node.) -/
def specComponentFunction (node : TsNode) : Bool :=
  match node with
  | .functionDecl name _ _ | .functionExpr name _ _ =>
    match name with
    | some nm =>
      (match nm.data with
        | [] => false
        | c :: _ => c.isUpper) || jsStartsWith nm "use"
    | none => false
  | _ => false

/-- Claim C2, counterexample: a *named function expression* whose name
starts with an uppercase letter (`const C = function Comp() {...}`) should
qualify per the claim, but `isComponentFunction` returns `false` for it — it
only ever reads names of function declarations. -/
theorem isComponentFunction_ignores_functionExpr :
    specComponentFunction (TsNode.functionExpr (some "Comp") 0 []) = true ∧
    isComponentFunction (TsNode.functionExpr (some "Comp") 0 []) = false := by decide

/-- Claim C2, amended: `isComponentFunction` returns `true` iff the node is
a *function declaration* carrying a nonempty name whose first character is
unchanged by uppercase conversion or which starts with `use`; named function
expressions and arrow-bound functions never qualify, because the classifier
reads the name only off declarations. -/
theorem isComponentFunction_iff (node : TsNode) :
    isComponentFunction node = true ↔
      ∃ nm pos children, node = TsNode.functionDecl (some nm) pos children ∧
        nm ≠ "" ∧ (jsStartsUppercase nm || jsStartsWith nm "use") = true := by
  cases node with
  | functionDecl name pos children =>
    cases name with
    | none =>
      simp [isComponentFunction, isFunctionDeclaration, functionDeclName]
    | some nm =>
      simp only [isComponentFunction, isFunctionDeclaration, functionDeclName,
        Bool.true_or, Bool.not_true, Bool.false_eq_true, if_false, if_true]
      constructor
      · intro h
        by_cases hne : nm = ""
        · rw [if_neg (by simp [hne])] at h
          exact absurd h Bool.false_ne_true
        · rw [if_pos hne] at h
          exact ⟨nm, pos, children, rfl, hne, h⟩
      · rintro ⟨nm', pos', children', heq, hne, hcond⟩
        obtain ⟨h1, h2, h3⟩ := TsNode.functionDecl.inj heq
        obtain rfl : nm = nm' := Option.some.inj h1
        rw [if_pos hne]
        exact hcond
  | functionExpr name pos children =>
    simp [isComponentFunction, isFunctionDeclaration, isFunctionExpression,
      isArrowFunction, functionDeclName]
  | arrowFun pos children =>
    simp [isComponentFunction, isFunctionDeclaration, isFunctionExpression,
      isArrowFunction, functionDeclName]
  | importDecl a b c d e =>
    simp [isComponentFunction, isFunctionDeclaration, isFunctionExpression, isArrowFunction]
  | forStmt pos children =>
    simp [isComponentFunction, isFunctionDeclaration, isFunctionExpression, isArrowFunction]
  | forInStmt pos children =>
    simp [isComponentFunction, isFunctionDeclaration, isFunctionExpression, isArrowFunction]
  | forOfStmt pos children =>
    simp [isComponentFunction, isFunctionDeclaration, isFunctionExpression, isArrowFunction]
  | ifStmt cond pos children =>
    simp [isComponentFunction, isFunctionDeclaration, isFunctionExpression, isArrowFunction]
  | ident name pos =>
    simp [isComponentFunction, isFunctionDeclaration, isFunctionExpression, isArrowFunction]
  | propAccess pos children =>
    simp [isComponentFunction, isFunctionDeclaration, isFunctionExpression, isArrowFunction]
  | binaryExpr pos children =>
    simp [isComponentFunction, isFunctionDeclaration, isFunctionExpression, isArrowFunction]
  | other pos children =>
    simp [isComponentFunction, isFunctionDeclaration, isFunctionExpression, isArrowFunction]

/-- Witness for `isComponentFunction_iff`: the declaration
`function UserList() {}`. -/
theorem isComponentFunction_iff_witness :
    isComponentFunction (TsNode.functionDecl (some "UserList") 0 []) = true ∧
    ("UserList" ≠ "" ∧ (jsStartsUppercase "UserList" || jsStartsWith "UserList" "use") = true) :=
  ⟨(isComponentFunction_iff (TsNode.functionDecl (some "UserList") 0 [])).mpr
      ⟨"UserList", 0, [], rfl, by decide, by decide⟩,
    by decide, by decide⟩

/-- Claim C10: the classifier's uppercase test is
`name[0] === name[0].toUpperCase()`, so every function declaration whose
name's first character is unchanged by uppercase conversion — underscores,
dollar signs, digits included — is classified as a component function. -/
theorem isComponentFunction_first_char_fixed (nm : String) (pos : Nat)
    (children : List TsNode) (c : Char) (rest : List Char)
    (hdata : nm.data = c :: rest) (hfix : c.toUpper = c) :
    isComponentFunction (TsNode.functionDecl (some nm) pos children) = true := by
  have hne : nm ≠ "" := by
    intro h
    rw [h] at hdata
    exact absurd hdata (by simp)
  unfold isComponentFunction
  simp only [isFunctionDeclaration, functionDeclName, Bool.true_or, Bool.not_true,
    Bool.false_eq_true, if_false, if_true]
  rw [if_pos hne]
  unfold jsStartsUppercase
  rw [hdata]
  simp [hfix]

/-- Witness for `isComponentFunction_first_char_fixed` at the name
`_helper` (whose first character `_` is not an uppercase letter). -/
theorem isComponentFunction_first_char_fixed_witness :
    ("_helper".data = '_' :: "helper".data ∧ '_'.toUpper = '_' ∧ ¬ '_'.isUpper) ∧
    isComponentFunction (TsNode.functionDecl (some "_helper") 0 []) = true :=
  ⟨⟨by decide, by decide, by decide⟩,
    isComponentFunction_first_char_fixed "_helper" 0 [] '_' "helper".data
      (by decide) (by decide)⟩

/-! ## Layer resolver (`detectLayerFromPath`) and path helpers -/

/-- Substring containment of one character list in another (JS
`String.prototype.includes`, written so that it reduces in the kernel). -/
def jsIncludesData (needle : List Char) : List Char → Bool
  | [] => needle.isEmpty
  | c :: t => needle.isPrefixOf (c :: t) || jsIncludesData needle t

/-- `haystack.includes(needle)`. -/
def jsIncludes (s sub : String) : Bool :=
  jsIncludesData sub.data s.data

theorem jsIncludesData_infix_iff (needle : List Char) :
    ∀ hay, jsIncludesData needle hay = true ↔ needle <:+: hay := by
  intro hay
  induction hay with
  | nil =>
    simp only [jsIncludesData, List.isEmpty_iff]
    constructor
    · intro h; rw [h]
    · intro h; exact List.eq_nil_of_infix_nil h
  | cons c t ih =>
    simp only [jsIncludesData, Bool.or_eq_true, List.isPrefixOf_iff_prefix, ih]
    constructor
    · rintro (h | h)
      · exact h.isInfix
      · exact List.infix_cons h
    · intro h
      rcases (List.infix_cons_iff).mp h with h | h
      · exact Or.inl h
      · exact Or.inr h

/-- `filePath.replace(/\\/g, "/")`: every backslash becomes a forward
slash. -/
def jsNormalizeSeparators (s : String) : String :=
  ⟨s.data.map (fun c => if c = '\\' then '/' else c)⟩

/-- `detectLayerFromPath(filePath, layers)` from
`packages/rules-react/src/index.ts`: the first configured layer name (in the
layer object's iteration order) such that the separator-normalized path
contains `"/" + layerName + "/"` (or `"\" + layerName + "\"`, which can
never occur after normalization). -/
def detectLayerFromPath (filePath : String) (layers : List (String × LayerConfig)) :
    Option String :=
  let normalizedPath := jsNormalizeSeparators filePath
  (layers.map (·.1)).find? (fun layerName =>
    jsIncludes normalizedPath ("/" ++ layerName ++ "/") ||
    jsIncludes normalizedPath ("\\" ++ layerName ++ "\\"))

/-- Claim C6's matching condition, modelled from the spec's words: the layer
name occurs in the separator-normalized path as a whole path segment bounded
by separators on both sides. -/
def segmentBounded (layerName filePath : String) : Prop :=
  ∃ pre post : List Char,
    (jsNormalizeSeparators filePath).data = pre ++ ('/' :: layerName.data ++ ['/']) ++ post

instance (layerName filePath : String) : Decidable (segmentBounded layerName filePath) :=
  decidable_of_iff
    (jsIncludesData ('/' :: layerName.data ++ ['/']) (jsNormalizeSeparators filePath).data = true)
    (by
      rw [jsIncludesData_infix_iff]
      constructor
      · rintro ⟨pre, post, h⟩
        exact ⟨pre, post, h.symm⟩
      · rintro ⟨pre, post, h⟩
        exact ⟨pre, post, h.symm⟩)

/-! Node's `path.dirname` and `path.resolve` (posix), used by
`detectLayerFromImportPath` and `resolveImportPath`.  `pathResolve` is
modelled without the `process.cwd()` fallback: the file walker only ever
produces absolute importer paths, for which the fallback is dead code. -/

/-- The scan loop of Node's posix `dirname`: walk indices `i` downwards to
`1` looking for the last `/` that precedes the basename (skipping trailing
slashes); returns the index where the dirname ends. -/
def dirnameLoop (data : List Char) : Nat → Bool → Option Nat
  | 0, _ => none
  | i + 1, matchedSlash =>
    if data.getD (i + 1) ' ' = '/' then
      if !matchedSlash then some (i + 1) else dirnameLoop data i matchedSlash
    else dirnameLoop data i false

/-- Node posix `path.dirname`. -/
def pathDirname (p : String) : String :=
  if p.data.isEmpty then "." else
  let data := p.data
  let hasRoot := data.head? = some '/'
  match dirnameLoop data (data.length - 1) true with
  | none => if hasRoot then "/" else "."
  | some e => if hasRoot ∧ e = 1 then "//" else ⟨data.take e⟩

/-- Split a character list on `/`. -/
def splitSlash : List Char → List String
  | [] => [""]
  | c :: rest =>
    if c = '/' then "" :: splitSlash rest
    else
      match splitSlash rest with
      | [] => [⟨[c]⟩]
      | s :: ss => (⟨c :: s.data⟩ : String) :: ss

/-- Node's `normalizeString` at segment granularity: drop empty and `.`
segments, make `..` pop the previous segment (kept literally above the root
when `allowAboveRoot`). -/
def normalizeSegments (allowAboveRoot : Bool) : List String → List String → List String
  | [], acc => acc.reverse
  | seg :: rest, acc =>
    if seg = "" ∨ seg = "." then normalizeSegments allowAboveRoot rest acc
    else if seg = ".." then
      match acc with
      | top :: accRest =>
        if top ≠ ".." then normalizeSegments allowAboveRoot rest accRest
        else if allowAboveRoot then normalizeSegments allowAboveRoot rest (".." :: acc)
        else normalizeSegments allowAboveRoot rest acc
      | [] =>
        if allowAboveRoot then normalizeSegments allowAboveRoot rest [".."]
        else normalizeSegments allowAboveRoot rest []
    else normalizeSegments allowAboveRoot rest (seg :: acc)

/-- Node posix `path.resolve(dir, p)` (without the `process.cwd()`
fallback for fully relative inputs, see above). -/
def pathResolve (dir p : String) : String :=
  let combined := if p.data.head? = some '/' then p
    else if dir.data.isEmpty then p else dir ++ "/" ++ p
  let isAbs := combined.data.head? = some '/'
  let segs := normalizeSegments (!isAbs) (splitSlash combined.data) []
  let joined := String.intercalate "/" segs
  if isAbs then "/" ++ joined
  else if joined.data.isEmpty then "." else joined

/-- `detectLayerFromImportPath(importPath, fromFile, layers)`. -/
def detectLayerFromImportPath (importPath fromFile : String)
    (layers : List (String × LayerConfig)) : Option String :=
  detectLayerFromPath (pathResolve (pathDirname fromFile) importPath) layers

/-- `isRelativeImport(importPath)`. -/
def isRelativeImport (importPath : String) : Bool :=
  jsStartsWith importPath "." || jsStartsWith importPath "/"

/-! ## AST traversal helpers -/

/-- The children visited by `ts.forEachChild`; for an `if` statement the
scrutinised expression is the first child. -/
def TsNode.kids : TsNode → List TsNode
  | .importDecl _ _ _ _ ch => ch
  | .functionDecl _ _ ch => ch
  | .functionExpr _ _ ch => ch
  | .arrowFun _ ch => ch
  | .forStmt _ ch => ch
  | .forInStmt _ ch => ch
  | .forOfStmt _ ch => ch
  | .ifStmt cond _ ch => cond :: ch
  | .ident _ _ => []
  | .propAccess _ ch => ch
  | .binaryExpr _ ch => ch
  | .other _ ch => ch

mutual
/-- Number of nodes of a tree (a computable strict bound on its depth, used
as fuel for the traversals below). -/
def TsNode.size : TsNode → Nat
  | .importDecl _ _ _ _ ch => 1 + TsNode.sizeList ch
  | .functionDecl _ _ ch => 1 + TsNode.sizeList ch
  | .functionExpr _ _ ch => 1 + TsNode.sizeList ch
  | .arrowFun _ ch => 1 + TsNode.sizeList ch
  | .forStmt _ ch => 1 + TsNode.sizeList ch
  | .forInStmt _ ch => 1 + TsNode.sizeList ch
  | .forOfStmt _ ch => 1 + TsNode.sizeList ch
  | .ifStmt cond _ ch => 1 + TsNode.size cond + TsNode.sizeList ch
  | .ident _ _ => 1
  | .propAccess _ ch => 1 + TsNode.sizeList ch
  | .binaryExpr _ ch => 1 + TsNode.sizeList ch
  | .other _ ch => 1 + TsNode.sizeList ch

/-- Total size of a list of trees. -/
def TsNode.sizeList : List TsNode → Nat
  | [] => 0
  | t :: ts => TsNode.size t + TsNode.sizeList ts
end

/-- `node.getStart()`. -/
def TsNode.pos : TsNode → Nat
  | .importDecl _ _ _ p _ => p
  | .functionDecl _ p _ => p
  | .functionExpr _ p _ => p
  | .arrowFun p _ => p
  | .forStmt p _ => p
  | .forInStmt p _ => p
  | .forOfStmt p _ => p
  | .ifStmt _ p _ => p
  | .ident _ p => p
  | .propAccess p _ => p
  | .binaryExpr p _ => p
  | .other p _ => p

/-- `ts.isImportDeclaration(node) && ts.isStringLiteral(node.moduleSpecifier)
&& node.moduleSpecifier.text === importPath`. -/
def isMatchingImportDecl (importPath : String) : TsNode → Bool
  | .importDecl (some s) _ _ _ _ => s == importPath
  | _ => false

/-- The `visit` of `findImportNode`: a matching import declaration
overwrites `found` and skips its own subtree; otherwise the children are
visited in order (so the value retained is the *last* match in document
order).  The recursion is driven by a fuel argument so that the definition
is structural (and reduces in the kernel); `sizeOf t` strictly dominates the
tree depth, so the fuel supplied by `findImportNode` never runs out. -/
def findImportNodeAux (importPath : String) : Nat → Option TsNode → TsNode → Option TsNode
  | 0, acc, _ => acc
  | fuel + 1, acc, t =>
    if isMatchingImportDecl importPath t then some t
    else t.kids.foldl (fun acc c => findImportNodeAux importPath fuel acc c) acc

/-- `findImportNode(sourceFile, importPath)`. -/
def findImportNode (sourceFile : TsNode) (importPath : String) : Option TsNode :=
  findImportNodeAux importPath sourceFile.size none sourceFile

/-- `sourceFile.getLineAndCharacterOfPosition(pos)`: zero-based line and
column, counting `\n` line breaks in the first `pos` characters. -/
def lineColAux : List Char → Nat → Nat → Nat → Nat × Nat
  | _, 0, line, col => (line, col)
  | [], _ + 1, line, col => (line, col)
  | c :: rest, n + 1, line, col =>
    if c = '\n' then lineColAux rest n (line + 1) 0
    else lineColAux rest n line (col + 1)

/-- Line/character of a character offset in a source text (zero-based). -/
def lineCol (source : String) (pos : Nat) : Nat × Nat :=
  lineColAux source.data pos 0 0

/-! ## Layer boundary rule (`createLayerImportBoundaryRule`) -/

/-- `context.architecture.layers[layerName]` (object lookup). -/
def lookupLayer (layers : List (String × LayerConfig)) (layerName : String) :
    Option LayerConfig :=
  (layers.find? (fun p => p.1 == layerName)).map (·.2)

/-- The `allowedImports` of a layer name (empty for an unknown layer); used
to phrase the allow-list membership in claim terms. -/
def layerAllowedImports (layers : List (String × LayerConfig)) (layerName : String) :
    List String :=
  match lookupLayer layers layerName with
  | some cfg => cfg.allowedImports
  | none => []

/-- The `Violation` pushed by the boundary rule: pinned at the (1-based)
line/column of the import statement's start, naming both layers and the
allow-list (or `none` when it is empty). -/
def mkBoundaryViolation (sourceCode filePath layerName importedLayer : String)
    (layerConfig : LayerConfig) (importNode : TsNode) : Violation :=
  let lc := lineCol sourceCode importNode.pos
  let allowedList := if layerConfig.allowedImports.length > 0 then
    String.intercalate ", " layerConfig.allowedImports else "none"
  { file := filePath
    line := lc.1 + 1
    column := lc.2 + 1
    message := "Layer '" ++ layerName ++ "' cannot import from '" ++ importedLayer ++
      "'. Import from allowed layers only: " ++ allowedList ++
      ". Move the imported code to an allowed layer or restructure dependencies."
    rule := "layer-import-boundary" }

/-- `createLayerImportBoundaryRule().execute(context)` from
`packages/rules-react/src/index.ts`, parameterised by the external TS
parser. -/
def createLayerImportBoundaryRuleExecute (parse : String → String → TsNode)
    (context : RuleContext) : RuleResult :=
  if !context.architecture.rules.enforceFeatureBoundaries then
    { violations := [], passed := true }
  else
    let filePath := context.filePath
    match detectLayerFromPath filePath context.architecture.layers with
    | none => { violations := [], passed := true }
    | some layerName =>
      match lookupLayer context.architecture.layers layerName with
      | none => { violations := [], passed := true }
      | some layerConfig =>
        let violations := context.imports.foldl
          (fun violations imp =>
            if isRelativeImport imp.«from» then
              match detectLayerFromImportPath imp.«from» filePath
                  context.architecture.layers with
              | some importedLayer =>
                if importedLayer != layerName &&
                    !(layerConfig.allowedImports.contains importedLayer) then
                  match findImportNode (parse context.sourceCode context.filePath)
                      imp.«from» with
                  | some importNode =>
                    violations ++ [mkBoundaryViolation context.sourceCode filePath
                      layerName importedLayer layerConfig importNode]
                  | none => violations
                else violations
              | none => violations
            else violations) []
        { violations := violations, passed := violations.length == 0 }

/-- Claim C5's per-import verdict, modelled from the spec's words: for a
relative import whose target resolves to a layer different from the
importing file's layer and not in that layer's `allowedImports` set, the
violation pinned at the import statement's first token, naming the
disallowed layer and listing the allowed layers (or `"none"` when the set is
empty); `none` otherwise. -/
def boundaryViolationSpec (parse : String → String → TsNode) (context : RuleContext)
    (layerName : String) (imp : ImportInfo) : Option Violation :=
  if isRelativeImport imp.«from» = true then
    match detectLayerFromImportPath imp.«from» context.filePath
        context.architecture.layers with
    | some importedLayer =>
      if importedLayer ≠ layerName ∧
          importedLayer ∉ layerAllowedImports context.architecture.layers layerName then
        match findImportNode (parse context.sourceCode context.filePath) imp.«from» with
        | some importNode =>
          some { file := context.filePath
                 line := (lineCol context.sourceCode importNode.pos).1 + 1
                 column := (lineCol context.sourceCode importNode.pos).2 + 1
                 message := "Layer '" ++ layerName ++ "' cannot import from '" ++
                   importedLayer ++ "'. Import from allowed layers only: " ++
                   (if (layerAllowedImports context.architecture.layers layerName).length > 0
                    then String.intercalate ", "
                      (layerAllowedImports context.architecture.layers layerName)
                    else "none") ++
                   ". Move the imported code to an allowed layer or restructure dependencies."
                 rule := "layer-import-boundary" }
        | none => none
      else none
    | none => none
  else none

theorem foldl_optAppend_filterMap {α β : Type} (f : α → Option β) :
    ∀ (l : List α) (acc : List β),
      l.foldl (fun acc a => (f a).elim acc (fun b => acc ++ [b])) acc =
        acc ++ l.filterMap f := by
  intro l
  induction l with
  | nil => intro acc; simp
  | cons a rest ihl =>
    intro acc
    simp only [List.foldl_cons]
    cases hf : f a with
    | none =>
      rw [ihl, List.filterMap_cons, hf]
      rfl
    | some b =>
      rw [ihl, List.filterMap_cons, hf]
      simp [Option.elim]

theorem list_find?_congr {α : Type} (p q : α → Bool) (h : ∀ a, p a = q a) :
    ∀ l : List α, l.find? p = l.find? q := by
  intro l
  induction l with
  | nil => rfl
  | cons a rest ihl =>
    simp only [List.find?]
    rw [h a, ihl]

/-- When the layer resolver returns a name, that name is a key of the layer
mapping, so the subsequent object lookup always succeeds. -/
theorem lookupLayer_of_detect (filePath : String) (layers : List (String × LayerConfig))
    (layerName : String) (h : detectLayerFromPath filePath layers = some layerName) :
    ∃ cfg, lookupLayer layers layerName = some cfg ∧
      cfg.allowedImports = layerAllowedImports layers layerName := by
  have hmem : layerName ∈ layers.map (·.1) := List.mem_of_find?_eq_some h
  rcases List.mem_map.mp hmem with ⟨p, hp, hfst⟩
  have : (layers.find? (fun q => q.1 == layerName)).isSome := by
    rw [List.find?_isSome]
    exact ⟨p, hp, by simp [hfst]⟩
  rcases Option.isSome_iff_exists.mp this with ⟨q, hq⟩
  refine ⟨q.2, ?_, ?_⟩
  · rw [lookupLayer, hq, Option.map_some']
  · rw [layerAllowedImports, lookupLayer, hq, Option.map_some']

/-- Claim C5.  With `enforceFeatureBoundaries` on, the boundary rule emits
exactly the violations mandated by the spec, import by import and in order:
one for each relative import resolving to a different, non-allow-listed
layer, pinned at the import statement's first token and naming the
disallowed layer and the allow-list (or "none"); and a file resolving to no
layer passes trivially. -/
theorem layerBoundary_spec (parse : String → String → TsNode) (context : RuleContext)
    (htog : context.architecture.rules.enforceFeatureBoundaries = true) :
    ((createLayerImportBoundaryRuleExecute parse context).violations =
      match detectLayerFromPath context.filePath context.architecture.layers with
      | none => []
      | some layerName =>
        context.imports.filterMap (boundaryViolationSpec parse context layerName)) ∧
    (detectLayerFromPath context.filePath context.architecture.layers = none →
      createLayerImportBoundaryRuleExecute parse context = { violations := [], passed := true }) := by
  unfold createLayerImportBoundaryRuleExecute
  rw [htog]
  simp only [Bool.not_true, Bool.false_eq_true, if_false]
  cases hdet : detectLayerFromPath context.filePath context.architecture.layers with
  | none =>
    exact ⟨rfl, fun _ => rfl⟩
  | some layerName =>
    refine ⟨?_, fun hc => absurd hc (by simp)⟩
    rcases lookupLayer_of_detect _ _ _ hdet with ⟨layerConfig, hlk, hallowed⟩
    dsimp only
    rw [hlk]
    show (RuleResult.violations { violations := _, passed := _ }) = _
    simp only
    have hstep : (fun (violations : List Violation) (imp : ImportInfo) =>
        if isRelativeImport imp.«from» then
          match detectLayerFromImportPath imp.«from» context.filePath
              context.architecture.layers with
          | some importedLayer =>
            if importedLayer != layerName &&
                !(layerConfig.allowedImports.contains importedLayer) then
              match findImportNode (parse context.sourceCode context.filePath)
                  imp.«from» with
              | some importNode =>
                violations ++ [mkBoundaryViolation context.sourceCode context.filePath
                  layerName importedLayer layerConfig importNode]
              | none => violations
            else violations
          | none => violations
        else violations) =
        (fun (violations : List Violation) (imp : ImportInfo) =>
          (boundaryViolationSpec parse context layerName imp).elim violations
            (fun v => violations ++ [v])) := by
      funext violations imp
      unfold boundaryViolationSpec
      by_cases hrel : isRelativeImport imp.«from» = true
      · rw [if_pos hrel, if_pos hrel]
        cases hdl : detectLayerFromImportPath imp.«from» context.filePath
            context.architecture.layers with
        | none => rfl
        | some importedLayer =>
          dsimp only
          by_cases hcond : importedLayer ≠ layerName ∧
              importedLayer ∉ layerAllowedImports context.architecture.layers layerName
          · rw [if_pos hcond]
            have hb : (importedLayer != layerName &&
                !(layerConfig.allowedImports.contains importedLayer)) = true := by
              rw [Bool.and_eq_true, bne_iff_ne, Bool.not_eq_true']
              refine ⟨hcond.1, ?_⟩
              rw [← Bool.not_eq_true]
              intro hc
              exact hcond.2 (hallowed ▸ List.elem_iff.mp hc)
            rw [hb]
            simp only [if_true]
            cases findImportNode (parse context.sourceCode context.filePath)
                imp.«from» with
            | none => rfl
            | some importNode =>
              unfold mkBoundaryViolation
              rw [hallowed]
              rfl
          · rw [if_neg hcond]
            have hb : (importedLayer != layerName &&
                !(layerConfig.allowedImports.contains importedLayer)) = false := by
              rw [← Bool.not_eq_true, Bool.and_eq_true, bne_iff_ne, Bool.not_eq_true']
              intro hcc
              refine hcond ⟨hcc.1, ?_⟩
              intro hm
              have hc : layerConfig.allowedImports.contains importedLayer = true :=
                List.elem_iff.mpr (hallowed.symm ▸ hm)
              rw [hcc.2] at hc
              exact Bool.false_ne_true hc
            rw [hb]
            simp only [Bool.false_eq_true, if_false]
            rfl
      · rw [if_neg hrel, if_neg hrel]; rfl
    rw [hstep,
      foldl_optAppend_filterMap (boundaryViolationSpec parse context layerName)
        context.imports [],
      List.nil_append]

/-- The layers of the spec's testable property 8.1:
`domain: []`, `features: [domain, shared]`, `ui: [features, shared]`. -/
def boundaryLayers : List (String × LayerConfig) :=
  [("domain", ⟨[]⟩), ("features", ⟨["domain", "shared"]⟩), ("ui", ⟨["features", "shared"]⟩)]

/-- A file under `ui/` importing `../domain/Bar`, with only the boundary
toggle enabled. -/
def boundaryCtx : RuleContext :=
  { filePath := "/proj/ui/Foo.tsx"
    sourceCode := "import { Bar } from '../domain/Bar';"
    ast := TsNode.importDecl (some "../domain/Bar") false ["Bar"] 0 []
    imports := [⟨"../domain/Bar", ["Bar"], false⟩]
    architecture :=
      { layers := boundaryLayers
        rules :=
          { noBusinessLogicInComponents := false
            noDataFetchingInUI := false
            enforceFeatureBoundaries := true
            noCircularLayerDeps := false } }
    importGraph := none }

/-- The parser oracle for `boundaryCtx`: its source parses to the
single import declaration at offset 0. -/
def boundaryParse : String → String → TsNode :=
  fun _ _ => TsNode.importDecl (some "../domain/Bar") false ["Bar"] 0 []

/-- Witness for `layerBoundary_spec`: the 8.1 scenario, in which the rule
emits exactly one violation, at 1:1 of the `ui` file, naming `ui` and
`domain` and the allow-list `features, shared`. -/
theorem layerBoundary_spec_witness :
    (boundaryCtx.architecture.rules.enforceFeatureBoundaries = true) ∧
    ((createLayerImportBoundaryRuleExecute boundaryParse boundaryCtx).violations =
      match detectLayerFromPath boundaryCtx.filePath boundaryCtx.architecture.layers with
      | none => []
      | some layerName =>
        boundaryCtx.imports.filterMap
          (boundaryViolationSpec boundaryParse boundaryCtx layerName)) ∧
    ((createLayerImportBoundaryRuleExecute boundaryParse boundaryCtx).violations =
      [{ file := "/proj/ui/Foo.tsx"
         line := 1
         column := 1
         message := "Layer 'ui' cannot import from 'domain'. Import from allowed layers only: features, shared. Move the imported code to an allowed layer or restructure dependencies."
         rule := "layer-import-boundary" }]) :=
  ⟨rfl, (layerBoundary_spec boundaryParse boundaryCtx rfl).1, by decide⟩

/-- Claim C6.  The layer resolver normalizes path separators and returns the
first layer name, in the mapping's iteration order, occurring in the path as
a whole segment bounded by separators on both sides (the backslash-bounded
disjunct of the code is dead after normalization); and an unlayered file
passes the boundary rule trivially. -/
theorem detectLayerFromPath_first_segment (filePath : String)
    (layers : List (String × LayerConfig)) :
    (detectLayerFromPath filePath layers =
      (layers.map (·.1)).find? (fun layerName => decide (segmentBounded layerName filePath))) ∧
    (detectLayerFromPath filePath layers = none →
      ∀ (parse : String → String → TsNode) (context : RuleContext),
        context.filePath = filePath → context.architecture.layers = layers →
        createLayerImportBoundaryRuleExecute parse context = { violations := [], passed := true }) := by
  constructor
  · unfold detectLayerFromPath
    apply list_find?_congr
    intro layerName
    rw [Bool.eq_iff_iff]
    have hdata : ("/" ++ layerName ++ "/").data = '/' :: layerName.data ++ ['/'] := by
      rw [String.data_append, String.data_append]
      rfl
    constructor
    · intro h
      rcases Bool.or_eq_true_iff.mp h with h | h
      · rw [decide_eq_true_eq]
        unfold jsIncludes at h
        rw [jsIncludesData_infix_iff] at h
        rcases h with ⟨pre, post, heq⟩
        rw [hdata] at heq
        exact ⟨pre, post, heq.symm⟩
      · exfalso
        unfold jsIncludes at h
        rw [jsIncludesData_infix_iff] at h
        have hbs : '\\' ∈ (jsNormalizeSeparators filePath).data := by
          apply h.subset
          rw [String.data_append, String.data_append]
          exact List.mem_append_left _ (List.mem_append_left _ (by decide))
        unfold jsNormalizeSeparators at hbs
        simp only [List.mem_map] at hbs
        rcases hbs with ⟨c, _, hc⟩
        by_cases hcc : c = '\\'
        · rw [if_pos hcc] at hc; exact absurd hc (by decide)
        · rw [if_neg hcc] at hc; exact hcc hc
    · intro h
      rw [decide_eq_true_eq] at h
      apply Bool.or_eq_true_iff.mpr
      left
      unfold jsIncludes
      rw [jsIncludesData_infix_iff]
      rcases h with ⟨pre, post, heq⟩
      refine ⟨pre, post, ?_⟩
      rw [hdata]
      exact heq.symm
  · intro hnone parse context hfp hlay
    unfold createLayerImportBoundaryRuleExecute
    by_cases htog : context.architecture.rules.enforceFeatureBoundaries = true
    · rw [htog]
      simp only [Bool.not_true, Bool.false_eq_true, if_false]
      rw [hfp, hlay, hnone]
    · rw [Bool.not_eq_true] at htog
      rw [htog]
      rfl

/-- Witness for `detectLayerFromPath_first_segment`: an unlayered helper
file under the 8.1 layer mapping resolves to no layer and passes the
boundary rule. -/
theorem detectLayerFromPath_first_segment_witness :
    (detectLayerFromPath "lib/helpers.ts" boundaryLayers = none) ∧
    (createLayerImportBoundaryRuleExecute boundaryParse
      { boundaryCtx with filePath := "lib/helpers.ts" } = { violations := [], passed := true }) :=
  ⟨by decide,
    (detectLayerFromPath_first_segment "lib/helpers.ts" boundaryLayers).2 (by decide)
      boundaryParse { boundaryCtx with filePath := "lib/helpers.ts" } rfl rfl⟩

/-! ## Business-logic rule (`createBusinessLogicInComponentsRule`) -/

/-- Does a subtree contain a node satisfying `p`?  (Full traversal, fuel
`t.size` is a strict depth bound so the `0` case never fires.) -/
def anyNodeAux (p : TsNode → Bool) : Nat → TsNode → Bool
  | 0, _ => false
  | fuel + 1, t => p t || t.kids.any (fun c => anyNodeAux p fuel c)

/-- Whole-tree search used to model the flag-setting `visit` walks. -/
def anyNode (p : TsNode → Bool) (t : TsNode) : Bool :=
  anyNodeAux p t.size t

/-- An `import ... from "react"` declaration. -/
def isReactImportDecl : TsNode → Bool
  | .importDecl (some s) _ _ _ _ => s == "react"
  | _ => false

/-- `isReactComponentFile(sourceFile)`: one walk sets `hasReactImport` and
`hasComponent` flags; the result is their conjunction, i.e. the tree both
contains a `react` import and a qualifying component function. -/
def isReactComponentFile (sourceFile : TsNode) : Bool :=
  anyNode isReactImportDecl sourceFile && anyNode isComponentFunction sourceFile

/-- `ts.isForStatement(n) || ts.isForInStatement(n) || ts.isForOfStatement(n)`. -/
def isLoopNode : TsNode → Bool
  | .forStmt _ _ => true
  | .forInStmt _ _ => true
  | .forOfStmt _ _ => true
  | _ => false

/-- `isSimpleConditional`: the `if`'s test expression is a bare identifier,
a property access, or a binary expression. -/
def isSimpleConditionalExpr : TsNode → Bool
  | .ident _ _ => true
  | .propAccess _ _ => true
  | .binaryExpr _ _ => true
  | _ => false

/-- An `if` statement whose test is not simple. -/
def isComplexIf : TsNode → Bool
  | .ifStmt cond _ _ => !isSimpleConditionalExpr cond
  | _ => false

/-- The loop violation of `checkForBusinessLogic`. -/
def mkBizLoopViolation (filePath source : String) (n : TsNode) : Violation :=
  let lc := lineCol source n.pos
  { file := filePath
    line := lc.1 + 1
    column := lc.2 + 1
    message := "Loop detected in UI component. Extract loop logic to a utility function in features/domain layer and pass processed data as props."
    rule := "no-business-logic-in-components" }

/-- The complex-conditional violation of `checkForBusinessLogic`. -/
def mkBizIfViolation (filePath source : String) (n : TsNode) : Violation :=
  let lc := lineCol source n.pos
  { file := filePath
    line := lc.1 + 1
    column := lc.2 + 1
    message := "Complex conditional in UI component. Extract to a custom hook (e.g. useConditionalLogic) in features layer or move to domain utilities."
    rule := "no-business-logic-in-components" }

/-- The inner `visit` of `checkForBusinessLogic`: flag every loop construct
and every non-simple conditional in the subtree, in document order. -/
def bizFlagsAux (filePath source : String) : Nat → TsNode → List Violation
  | 0, _ => []
  | fuel + 1, n =>
    (if isLoopNode n then [mkBizLoopViolation filePath source n] else []) ++
    (if isComplexIf n then [mkBizIfViolation filePath source n] else []) ++
    n.kids.flatMap (fun c => bizFlagsAux filePath source fuel c)

/-- `checkForBusinessLogic(node, sourceFile, violations, filePath)` (as the
list of violations it appends). -/
def checkForBusinessLogic (node : TsNode) (source filePath : String) : List Violation :=
  bizFlagsAux filePath source node.size node

/-- The outer `visit` of the business-logic rule: at every qualifying
component function, append that function's business-logic flags, then
recurse into the children (so nested component functions are scanned
again, as in the source). -/
def bizVisitAux (filePath source : String) : Nat → TsNode → List Violation
  | 0, _ => []
  | fuel + 1, n =>
    (if isComponentFunction n then checkForBusinessLogic n source filePath else []) ++
    n.kids.flatMap (fun c => bizVisitAux filePath source fuel c)

/-- `createBusinessLogicInComponentsRule().execute(context)`. -/
def createBusinessLogicInComponentsRuleExecute (parse : String → String → TsNode)
    (context : RuleContext) : RuleResult :=
  if !context.architecture.rules.noBusinessLogicInComponents then
    { violations := [], passed := true }
  else
    let sourceFile := parse context.sourceCode context.filePath
    if !isReactComponentFile sourceFile then
      { violations := [], passed := true }
    else
      let violations := bizVisitAux context.filePath context.sourceCode
        sourceFile.size sourceFile
      { violations := violations, passed := violations.length == 0 }

/-! ## Data-fetching rule (`createDataFetchingInUIRule`)

The fixed pattern list is scanned over the raw source text with JS `g`-flag
`matchAll` semantics: leftmost matches, greedy quantifiers, the scan
resuming after each match.  The engine below implements exactly the two
constructs these patterns use (literals and greedy character-class stars). -/

/-- An atom of the data-fetching regular expressions. -/
inductive ReAtom where
  | lit (cs : List Char)
  | star (p : Char → Bool)

mutual
/-- Length of the (greedy, backtracking) match of `atoms` at the start of
`s`, `none` if there is no match — JS semantics for star-and-literal
patterns. -/
def reMatchLen : List ReAtom → List Char → Option Nat
  | [], _ => some 0
  | .lit cs :: rest, s =>
    if cs.isPrefixOf s then (reMatchLen rest (s.drop cs.length)).map (cs.length + ·)
    else none
  | .star p :: rest, s => starLoop p rest s ((s.takeWhile p).length)
termination_by atoms s => (atoms.length, 1, 0)

/-- Greedy backtracking for a star: try consuming `k` characters, largest
first. -/
def starLoop (p : Char → Bool) (rest : List ReAtom) (s : List Char) : Nat → Option Nat
  | 0 => reMatchLen rest s
  | k + 1 =>
    match reMatchLen rest (s.drop (k + 1)) with
    | some m => some (k + 1 + m)
    | none => starLoop p rest s k
termination_by k => (rest.length + 1, 0, k)
end

/-- The scan of `matchAll`: emit the index of each successive leftmost
match, resuming after it (one character further on a zero-length match, as
JS does). -/
def reScanAux (atoms : List ReAtom) (s : List Char) : Nat → Nat → List Nat
  | 0, _ => []
  | fuel + 1, pos =>
    if pos > s.length then []
    else
      match reMatchLen atoms (s.drop pos) with
      | some len =>
        pos :: (if len = 0 then reScanAux atoms s fuel (pos + 1)
                else reScanAux atoms s fuel (pos + len))
      | none =>
        if pos = s.length then [] else reScanAux atoms s fuel (pos + 1)

/-- All match indices of a pattern in a text. -/
def reMatchIndices (atoms : List ReAtom) (s : List Char) : List Nat :=
  reScanAux atoms s (s.length + 1) 0

/-- JS `\s` (the ASCII part; the patterns are applied to source code). -/
def jsSpace (c : Char) : Bool :=
  c = ' ' || c = '\t' || c = '\n' || c = '\r' || c = '\x0b' || c = '\x0c'

/-- The eight `forbiddenPatterns` of `createDataFetchingInUIRule`. -/
def dataFetchingPatterns : List (List ReAtom) :=
  [ [.lit "fetch".data, .star jsSpace, .lit "(".data],
    [.lit "axios.".data],
    [.lit ".get".data, .star jsSpace, .lit "(".data],
    [.lit ".post".data, .star jsSpace, .lit "(".data],
    [.lit ".put".data, .star jsSpace, .lit "(".data],
    [.lit ".delete".data, .star jsSpace, .lit "(".data],
    [.lit "useEffect".data, .star jsSpace, .lit "(".data, .star (fun c => c != ')'),
      .lit "=>".data, .star jsSpace, .lit "\x7b".data, .star (fun c => c != '\x7d'),
      .lit "fetch".data],
    [.lit "useEffect".data, .star jsSpace, .lit "(".data, .star (fun c => c != ')'),
      .lit "=>".data, .star jsSpace, .lit "\x7b".data, .star (fun c => c != '\x7d'),
      .lit "axios".data] ]

/-- `createDataFetchingInUIRule().execute(context)`. -/
def createDataFetchingInUIRuleExecute (parse : String → String → TsNode)
    (context : RuleContext) : RuleResult :=
  if !context.architecture.rules.noDataFetchingInUI then
    { violations := [], passed := true }
  else
    let sourceFile := parse context.sourceCode context.filePath
    if !isReactComponentFile sourceFile then
      { violations := [], passed := true }
    else
      let sourceText := context.sourceCode
      let violations := dataFetchingPatterns.foldl
        (fun acc pattern =>
          acc ++ (reMatchIndices pattern sourceText.data).map
            (fun idx =>
              let lc := lineCol sourceText idx
              { file := context.filePath
                line := lc.1 + 1
                column := lc.2 + 1
                message := "Data fetching in UI component violates architecture. Create a custom hook in the features layer (e.g. useUserData) and call it from the component."
                rule := "no-data-fetching-in-ui" })) []
      { violations := violations, passed := violations.length == 0 }

/-! ## Toggled-off rules (claim C7) -/

theorem boundaryExecute_toggle_off (parse : String → String → TsNode)
    (context : RuleContext)
    (h : context.architecture.rules.enforceFeatureBoundaries = false) :
    createLayerImportBoundaryRuleExecute parse context = { violations := [], passed := true } := by
  unfold createLayerImportBoundaryRuleExecute
  rw [h]; rfl

theorem businessLogicExecute_toggle_off (parse : String → String → TsNode)
    (context : RuleContext)
    (h : context.architecture.rules.noBusinessLogicInComponents = false) :
    createBusinessLogicInComponentsRuleExecute parse context = { violations := [], passed := true } := by
  unfold createBusinessLogicInComponentsRuleExecute
  rw [h]; rfl

theorem dataFetchingExecute_toggle_off (parse : String → String → TsNode)
    (context : RuleContext)
    (h : context.architecture.rules.noDataFetchingInUI = false) :
    createDataFetchingInUIRuleExecute parse context = { violations := [], passed := true } := by
  unfold createDataFetchingInUIRuleExecute
  rw [h]; rfl

theorem circularExecute_toggle_off (context : RuleContext)
    (h : context.architecture.rules.noCircularLayerDeps = false) :
    createCircularDependencyRuleExecute context = { violations := [], passed := true } := by
  unfold createCircularDependencyRuleExecute
  rw [h]; rfl

/-- Claim C7: each of the four rules checks its configuration toggle first
and, when the toggle is off, returns an empty passing result regardless of
the file's contents, imports, or the import graph. -/
theorem toggled_off_rules_pass (parse : String → String → TsNode) (context : RuleContext) :
    (context.architecture.rules.enforceFeatureBoundaries = false →
      createLayerImportBoundaryRuleExecute parse context = { violations := [], passed := true }) ∧
    (context.architecture.rules.noBusinessLogicInComponents = false →
      createBusinessLogicInComponentsRuleExecute parse context = { violations := [], passed := true }) ∧
    (context.architecture.rules.noDataFetchingInUI = false →
      createDataFetchingInUIRuleExecute parse context = { violations := [], passed := true }) ∧
    (context.architecture.rules.noCircularLayerDeps = false →
      createCircularDependencyRuleExecute context = { violations := [], passed := true }) :=
  ⟨boundaryExecute_toggle_off parse context,
    businessLogicExecute_toggle_off parse context,
    dataFetchingExecute_toggle_off parse context,
    circularExecute_toggle_off context⟩

/-- A context with every toggle disabled but with a boundary-violating
relative import present (the same file and imports as `boundaryCtx`) and a
cyclic import graph. -/
def allOffCtx : RuleContext :=
  { boundaryCtx with
    architecture :=
      { layers := boundaryLayers
        rules :=
          { noBusinessLogicInComponents := false
            noDataFetchingInUI := false
            enforceFeatureBoundaries := false
            noCircularLayerDeps := false } }
    importGraph := some gMutual }

/-- Witness for `toggled_off_rules_pass`: with all toggles off, all four
rules return a passing empty result on `allOffCtx`, although its imports
violate the boundary and its graph has a cycle. -/
theorem toggled_off_rules_pass_witness :
    (allOffCtx.architecture.rules.enforceFeatureBoundaries = false ∧
      allOffCtx.architecture.rules.noBusinessLogicInComponents = false ∧
      allOffCtx.architecture.rules.noDataFetchingInUI = false ∧
      allOffCtx.architecture.rules.noCircularLayerDeps = false) ∧
    (createLayerImportBoundaryRuleExecute boundaryParse allOffCtx = { violations := [], passed := true } ∧
      createBusinessLogicInComponentsRuleExecute boundaryParse allOffCtx = { violations := [], passed := true } ∧
      createDataFetchingInUIRuleExecute boundaryParse allOffCtx = { violations := [], passed := true } ∧
      createCircularDependencyRuleExecute allOffCtx = { violations := [], passed := true }) :=
  ⟨⟨rfl, rfl, rfl, rfl⟩,
    (toggled_off_rules_pass boundaryParse allOffCtx).1 rfl,
    (toggled_off_rules_pass boundaryParse allOffCtx).2.1 rfl,
    (toggled_off_rules_pass boundaryParse allOffCtx).2.2.1 rfl,
    (toggled_off_rules_pass boundaryParse allOffCtx).2.2.2 rfl⟩

/-! ## Configuration validation (packages/core/src/config.ts) -/

/-- A parsed YAML/JS value, as `yaml.parse` hands it to
`validateArchitectureConfig`. -/
inductive JsValue where
  | null
  | bool (b : Bool)
  | num (n : Int)
  | str (s : String)
  | arr (elems : List JsValue)
  | obj (fields : List (String × JsValue))

/-- JS property access `v[k]` (`none` = `undefined`). -/
def jsGet (v : JsValue) (k : String) : Option JsValue :=
  match v with
  | .obj fields => (fields.find? (fun p => p.1 == k)).map (·.2)
  | _ => none

/-- JS truthiness. -/
def jsTruthy : JsValue → Bool
  | .null => false
  | .bool b => b
  | .num n => n != 0
  | .str s => s != ""
  | .arr _ => true
  | .obj _ => true

/-- `typeof v === "object"` (true for objects, arrays and `null`). -/
def jsTypeofObject : JsValue → Bool
  | .null => true
  | .arr _ => true
  | .obj _ => true
  | _ => false

/-- JS string coercion, for the unchecked
`allowedImports: layer.allowedImports` cast (in well-formed configurations
the elements are already strings). -/
def jsToString : JsValue → String
  | .null => "null"
  | .bool b => if b then "true" else "false"
  | .num n => toString n
  | .str s => s
  | .arr _ => ""
  | .obj _ => "[object Object]"

/-- `Object.entries(v)`. -/
def jsEntries : JsValue → List (String × JsValue)
  | .obj fields => fields
  | .arr elems => elems.enum.map (fun p => (toString p.1, p.2))
  | _ => []

/-- The `for ... of Object.entries(config.layers)` loop of
`validateArchitectureConfig`: each layer value must be a truthy object with
an array `allowedImports`. -/
def validateLayers : List (String × JsValue) → Except String (List (String × LayerConfig))
  | [] => .ok []
  | (layerName, layerConfig) :: rest =>
    if !(jsTruthy layerConfig && jsTypeofObject layerConfig) then
      .error ("Invalid layer config for '" ++ layerName ++ "': must be an object")
    else
      match jsGet layerConfig "allowedImports" with
      | some (.arr elems) =>
        (validateLayers rest).map
          (fun layers => (layerName, ⟨elems.map jsToString⟩) :: layers)
      | _ =>
        .error ("Invalid layer config for '" ++ layerName ++
          "': 'allowedImports' must be an array")

/-- `rules.k ?? false`, then read as the rules later read it (through JS
truthiness): absent and `null` give `false`. -/
def toggleOf (rules : JsValue) (k : String) : Bool :=
  match jsGet rules k with
  | none => false
  | some .null => false
  | some v => jsTruthy v

/-- `config.rules || {}`. -/
def rulesValOf (config : JsValue) : JsValue :=
  match jsGet config "rules" with
  | some rv => if jsTruthy rv then rv else JsValue.obj []
  | none => JsValue.obj []

/-- `validateArchitectureConfig(config)` from `packages/core/src/config.ts`. -/
def validateArchitectureConfig (config : JsValue) : Except String ArchitectureConfig :=
  if !(jsTruthy config && jsTypeofObject config) then
    .error "Invalid architecture config: must be an object"
  else
    match jsGet config "layers" with
    | none => .error "Invalid architecture config: 'layers' must be an object"
    | some layersVal =>
      if !(jsTruthy layersVal && jsTypeofObject layersVal) then
        .error "Invalid architecture config: 'layers' must be an object"
      else
        match validateLayers (jsEntries layersVal) with
        | .error e => .error e
        | .ok layers =>
          let rules := rulesValOf config
          .ok { layers := layers
                rules :=
                  { noBusinessLogicInComponents := toggleOf rules "noBusinessLogicInComponents"
                    noDataFetchingInUI := toggleOf rules "noDataFetchingInUI"
                    enforceFeatureBoundaries := toggleOf rules "enforceFeatureBoundaries"
                    noCircularLayerDeps := toggleOf rules "noCircularLayerDeps" } }

/-- A toggle key is absent from the configuration document (including the
case of a missing — or non-object — `rules` section). -/
def toggleKeyAbsent (config : JsValue) (k : String) : Bool :=
  match jsGet config "rules" with
  | none => true
  | some rv => (jsGet rv k).isNone

/-- On success, every toggle of the validated configuration is `toggleOf`
of the `config.rules || {}` value. -/
theorem validate_rules_eq (config : JsValue) (cfg : ArchitectureConfig)
    (h : validateArchitectureConfig config = .ok cfg) :
    cfg.rules =
      { noBusinessLogicInComponents := toggleOf (rulesValOf config) "noBusinessLogicInComponents"
        noDataFetchingInUI := toggleOf (rulesValOf config) "noDataFetchingInUI"
        enforceFeatureBoundaries := toggleOf (rulesValOf config) "enforceFeatureBoundaries"
        noCircularLayerDeps := toggleOf (rulesValOf config) "noCircularLayerDeps" } := by
  unfold validateArchitectureConfig at h
  split at h
  · exact absurd h (by simp)
  · split at h
    · exact absurd h (by simp)
    · split at h
      · exact absurd h (by simp)
      · split at h
        · exact absurd h (by simp)
        · rw [← Except.ok.inj h]

/-- An absent toggle key evaluates to `false`. -/
theorem toggleOf_absent (config : JsValue) (k : String)
    (h : toggleKeyAbsent config k = true) :
    toggleOf (rulesValOf config) k = false := by
  unfold toggleKeyAbsent at h
  unfold rulesValOf
  cases hr : jsGet config "rules" with
  | none =>
    unfold toggleOf jsGet
    rfl
  | some rv =>
    rw [hr] at h
    dsimp only at h ⊢
    have hnone : jsGet rv k = none := Option.isNone_iff_eq_none.mp h
    by_cases ht : jsTruthy rv = true
    · rw [if_pos ht]
      unfold toggleOf
      rw [hnone]
    · rw [if_neg ht]
      unfold toggleOf jsGet
      rfl

/-- Claim C9: any of the four rule toggles absent from a document accepted
by `validateArchitectureConfig` — including when the whole `rules` section
is absent — defaults to `false`, and the corresponding rule then returns a
passing empty result on every context carrying the validated
configuration. -/
theorem config_missing_toggles_default_off (config : JsValue) (cfg : ArchitectureConfig)
    (hok : validateArchitectureConfig config = .ok cfg) :
    (toggleKeyAbsent config "noBusinessLogicInComponents" = true →
      cfg.rules.noBusinessLogicInComponents = false ∧
      ∀ (parse : String → String → TsNode) (context : RuleContext),
        context.architecture = cfg →
        createBusinessLogicInComponentsRuleExecute parse context = { violations := [], passed := true }) ∧
    (toggleKeyAbsent config "noDataFetchingInUI" = true →
      cfg.rules.noDataFetchingInUI = false ∧
      ∀ (parse : String → String → TsNode) (context : RuleContext),
        context.architecture = cfg →
        createDataFetchingInUIRuleExecute parse context = { violations := [], passed := true }) ∧
    (toggleKeyAbsent config "enforceFeatureBoundaries" = true →
      cfg.rules.enforceFeatureBoundaries = false ∧
      ∀ (parse : String → String → TsNode) (context : RuleContext),
        context.architecture = cfg →
        createLayerImportBoundaryRuleExecute parse context = { violations := [], passed := true }) ∧
    (toggleKeyAbsent config "noCircularLayerDeps" = true →
      cfg.rules.noCircularLayerDeps = false ∧
      ∀ (context : RuleContext), context.architecture = cfg →
        createCircularDependencyRuleExecute context = { violations := [], passed := true }) := by
  have hrules := validate_rules_eq config cfg hok
  refine ⟨fun h => ?_, fun h => ?_, fun h => ?_, fun h => ?_⟩
  · have hfalse : cfg.rules.noBusinessLogicInComponents = false := by
      rw [hrules]; exact toggleOf_absent config _ h
    exact ⟨hfalse, fun parse context hctx =>
      businessLogicExecute_toggle_off parse context (by rw [hctx]; exact hfalse)⟩
  · have hfalse : cfg.rules.noDataFetchingInUI = false := by
      rw [hrules]; exact toggleOf_absent config _ h
    exact ⟨hfalse, fun parse context hctx =>
      dataFetchingExecute_toggle_off parse context (by rw [hctx]; exact hfalse)⟩
  · have hfalse : cfg.rules.enforceFeatureBoundaries = false := by
      rw [hrules]; exact toggleOf_absent config _ h
    exact ⟨hfalse, fun parse context hctx =>
      boundaryExecute_toggle_off parse context (by rw [hctx]; exact hfalse)⟩
  · have hfalse : cfg.rules.noCircularLayerDeps = false := by
      rw [hrules]; exact toggleOf_absent config _ h
    exact ⟨hfalse, fun context hctx =>
      circularExecute_toggle_off context (by rw [hctx]; exact hfalse)⟩

/-- A document with a `layers` section but no `rules` section at all. -/
def noRulesDoc : JsValue :=
  JsValue.obj [("layers", JsValue.obj [("domain", JsValue.obj [("allowedImports", JsValue.arr [])])])]

/-- The configuration `noRulesDoc` validates to: every toggle `false`. -/
def noRulesCfg : ArchitectureConfig :=
  { layers := [("domain", ⟨[]⟩)]
    rules :=
      { noBusinessLogicInComponents := false
        noDataFetchingInUI := false
        enforceFeatureBoundaries := false
        noCircularLayerDeps := false } }

/-- Witness for `config_missing_toggles_default_off` at `noRulesDoc`: all
four toggles default to `false` and (for instance) the business-logic rule
passes on a context carrying the validated configuration. -/
theorem config_missing_toggles_default_off_witness :
    (validateArchitectureConfig noRulesDoc = Except.ok noRulesCfg ∧
      toggleKeyAbsent noRulesDoc "noBusinessLogicInComponents" = true) ∧
    (noRulesCfg.rules.noBusinessLogicInComponents = false ∧
      createBusinessLogicInComponentsRuleExecute boundaryParse
        { boundaryCtx with architecture := noRulesCfg } = { violations := [], passed := true }) :=
  ⟨⟨rfl, rfl⟩,
    ((config_missing_toggles_default_off noRulesDoc noRulesCfg rfl).1 rfl).1,
    ((config_missing_toggles_default_off noRulesDoc noRulesCfg rfl).1 rfl).2
      boundaryParse { boundaryCtx with architecture := noRulesCfg } rfl⟩

/-! ## Import extraction (packages/core/src/parser.ts) and the
`runChecks`/`buildImportGraph` pipeline of the CLI -/

/-- `extractImports(sourceFile)`: collect, in document order, every import
declaration with a string-literal specifier. -/
def extractImportsAux : Nat → TsNode → List ImportInfo
  | 0, _ => []
  | fuel + 1, t =>
    (match t with
      | .importDecl (some s) isTypeOnly boundNames _ _ => [⟨s, boundNames, isTypeOnly⟩]
      | _ => []) ++
    t.kids.flatMap (fun c => extractImportsAux fuel c)

/-- `extractImports` from `packages/core/src/parser.ts`. -/
def extractImports (sourceFile : TsNode) : List ImportInfo :=
  extractImportsAux sourceFile.size sourceFile

/-- `resolveImportPath(importPath, fromFile)` from the CLI: the literal
resolved path if it is an existing file, else the first matching extension
`.ts .tsx .js .jsx`, else the first matching `/index.{ts,tsx,js,jsx}`;
`none` when nothing exists.  The file system is the pair of oracles
`fileExists` (`fs.existsSync`) and `isFile`
(`fs.statSync(...).isFile()`). -/
def resolveImportPath (fileExists isFile : String → Bool)
    (importPath fromFile : String) : Option String :=
  let resolved := pathResolve (pathDirname fromFile) importPath
  if fileExists resolved && isFile resolved then some resolved
  else
    match [".ts", ".tsx", ".js", ".jsx"].find? (fun ext => fileExists (resolved ++ ext)) with
    | some ext => some (resolved ++ ext)
    | none =>
      match ["/index.ts", "/index.tsx", "/index.js", "/index.jsx"].find?
          (fun ext => fileExists (resolved ++ ext)) with
      | some ext => some (resolved ++ ext)
      | none => none

/-- `buildImportGraph(sourceFiles, cwd)` from the CLI: one key per walked
file, each mapped to its resolved in-project relative imports in order
(`fileSet.has` = membership in the walked list). -/
def buildImportGraph (read : String → String) (parse : String → String → TsNode)
    (fileExists isFile : String → Bool) (sourceFiles : List String) : ImportGraph :=
  sourceFiles.map (fun filePath =>
    let sourceCode := read filePath
    let ast := parse sourceCode filePath
    let imports := extractImports ast
    let relativeImports := imports.foldl
      (fun acc imp =>
        if jsStartsWith imp.«from» "." || jsStartsWith imp.«from» "/" then
          match resolveImportPath fileExists isFile imp.«from» filePath with
          | some resolvedPath =>
            if sourceFiles.contains resolvedPath then acc ++ [resolvedPath] else acc
          | none => acc
        else acc) []
    (filePath, relativeImports))

/-- `RuleEngine.executeRules(context)` with the four rules registered by
`runChecks`, in registration order: boundary, business logic, data
fetching, circular dependencies. -/
def executeRegisteredRules (parse : String → String → TsNode)
    (context : RuleContext) : RuleResult :=
  let allViolations :=
    (createLayerImportBoundaryRuleExecute parse context).violations ++
    (createBusinessLogicInComponentsRuleExecute parse context).violations ++
    (createDataFetchingInUIRuleExecute parse context).violations ++
    (createCircularDependencyRuleExecute context).violations
  { violations := allViolations, passed := allViolations.length == 0 }

/-- The per-file loop of `runChecks`: build the graph once over the full
file list, then execute the engine on each file's fresh context and
concatenate all violations in file order. -/
def runChecksViolations (architecture : ArchitectureConfig) (sourceFiles : List String)
    (read : String → String) (parse : String → String → TsNode)
    (fileExists isFile : String → Bool) : List Violation :=
  let importGraph := buildImportGraph read parse fileExists isFile sourceFiles
  sourceFiles.foldl
    (fun allViolations filePath =>
      let sourceCode := read filePath
      let ast := parse sourceCode filePath
      let imports := extractImports ast
      let context : RuleContext :=
        { filePath := filePath, sourceCode := sourceCode, ast := ast,
          imports := imports, architecture := architecture,
          importGraph := some importGraph }
      allViolations ++ (executeRegisteredRules parse context).violations) []

/-! ## Claim C8: determinism of a run -/

theorem foldl_congr_of_mem {α β : Type} (f g : β → α → β) (l : List α)
    (h : ∀ b a, a ∈ l → f b a = g b a) : ∀ acc, l.foldl f acc = l.foldl g acc := by
  induction l with
  | nil => intro acc; rfl
  | cons a rest ihl =>
    intro acc
    simp only [List.foldl_cons]
    rw [h acc a (List.mem_cons_self a rest)]
    exact ihl (fun b x hx => h b x (List.mem_cons_of_mem a hx)) _

/-- Claim C8.  The run is a pure function of the configuration, the ordered
file list, the contents of the listed files, the parser, and the file
system: two runs over the same configuration and the same unchanged file
tree (in particular, content oracles agreeing on every listed file) produce
identical violation lists — same count, same violations, same order.  No
file outside the list is ever read. -/
theorem runChecks_deterministic (architecture : ArchitectureConfig)
    (sourceFiles : List String) (read₁ read₂ : String → String)
    (parse : String → String → TsNode) (fileExists isFile : String → Bool)
    (hread : ∀ f ∈ sourceFiles, read₁ f = read₂ f) :
    runChecksViolations architecture sourceFiles read₁ parse fileExists isFile =
      runChecksViolations architecture sourceFiles read₂ parse fileExists isFile := by
  have hgraph : buildImportGraph read₁ parse fileExists isFile sourceFiles =
      buildImportGraph read₂ parse fileExists isFile sourceFiles := by
    unfold buildImportGraph
    apply List.map_congr_left
    intro f hf
    rw [hread f hf]
  unfold runChecksViolations
  rw [hgraph]
  apply foldl_congr_of_mem
  intro acc f hf
  rw [hread f hf]

/-- Witness for `runChecks_deterministic`: two content oracles that agree
on the single listed file (but differ elsewhere) give the same run
output. -/
theorem runChecks_deterministic_witness :
    (∀ f ∈ ["a.ts"], (fun _ => "const x = 1;") f = (fun g => if g = "a.ts" then "const x = 1;" else "DIFFERENT") f) ∧
    runChecksViolations noRulesCfg ["a.ts"] (fun _ => "const x = 1;")
        (fun _ _ => TsNode.other 0 []) (fun _ => false) (fun _ => false) =
      runChecksViolations noRulesCfg ["a.ts"]
        (fun g => if g = "a.ts" then "const x = 1;" else "DIFFERENT")
        (fun _ _ => TsNode.other 0 []) (fun _ => false) (fun _ => false) :=
  ⟨by decide,
    runChecks_deterministic noRulesCfg ["a.ts"] _ _ (fun _ _ => TsNode.other 0 [])
      (fun _ => false) (fun _ => false) (by decide)⟩

/-! ## Claim C4: the global cycle scan runs once per analyzed file, not
once per run -/

/-- Number of `detectCycles` invocations performed by one execution of the
cycle rule: from the code, exactly one when the toggle is on and a graph is
present (the call happens before any per-cycle filtering), zero when either
guard returns early. -/
def circularRuleScanCount (context : RuleContext) : Nat :=
  if !context.architecture.rules.noCircularLayerDeps then 0
  else
    match context.importGraph with
    | none => 0
    | some _ => 1

/-- Number of `detectCycles` invocations across a whole `runChecks` run:
the engine executes every registered rule once per file, so the cycle
rule's execute — and with it its `detectCycles` call — runs once per
analyzed file. -/
def runChecksScanCount (architecture : ArchitectureConfig) (sourceFiles : List String)
    (read : String → String) (parse : String → String → TsNode)
    (fileExists isFile : String → Bool) : Nat :=
  let importGraph := buildImportGraph read parse fileExists isFile sourceFiles
  sourceFiles.foldl
    (fun n filePath =>
      let sourceCode := read filePath
      let ast := parse sourceCode filePath
      n + circularRuleScanCount
        { filePath := filePath, sourceCode := sourceCode, ast := ast,
          imports := extractImports ast, architecture := architecture,
          importGraph := some importGraph }) 0

theorem foldl_add_const {α : Type} (c : Nat) (f : α → Nat) (hf : ∀ a, f a = c) :
    ∀ (l : List α) (n : Nat), l.foldl (fun n a => n + f a) n = n + c * l.length := by
  intro l
  induction l with
  | nil => intro n; simp
  | cons a rest ihl =>
    intro n
    simp only [List.foldl_cons, List.length_cons]
    rw [hf a, ihl]
    ring

/-- Claim C4 is violated by the code: with the toggle on and the graph
present, the global `detectCycles` scan executes once per *analyzed file*
(the cycle rule recomputes it inside every per-file `execute`), not once
per run as the specification's synchronization requirement demands. -/
theorem runChecks_scans_once_per_file (architecture : ArchitectureConfig)
    (htog : architecture.rules.noCircularLayerDeps = true)
    (sourceFiles : List String) (read : String → String)
    (parse : String → String → TsNode) (fileExists isFile : String → Bool) :
    runChecksScanCount architecture sourceFiles read parse fileExists isFile =
      sourceFiles.length := by
  unfold runChecksScanCount
  have h1 : ∀ filePath : String,
      circularRuleScanCount
        { filePath := filePath, sourceCode := read filePath,
          ast := parse (read filePath) filePath,
          imports := extractImports (parse (read filePath) filePath),
          architecture := architecture,
          importGraph := some (buildImportGraph read parse fileExists isFile sourceFiles) } = 1 := by
    intro filePath
    unfold circularRuleScanCount
    rw [htog]
    rfl
  calc sourceFiles.foldl _ 0 = 0 + 1 * sourceFiles.length := by
        exact foldl_add_const 1 _ h1 sourceFiles 0
    _ = sourceFiles.length := by omega

/-- Witness for `runChecks_scans_once_per_file`, and the concrete failing
run for the claim: a two-file run with the toggle on performs the global
scan twice, not once. -/
theorem runChecks_scans_once_per_file_witness :
    ((cycCtx "a.ts" gMutual).architecture.rules.noCircularLayerDeps = true) ∧
    (runChecksScanCount (cycCtx "a.ts" gMutual).architecture ["a.ts", "b.ts"]
        (fun _ => "") (fun _ _ => TsNode.other 0 []) (fun _ => false) (fun _ => false) =
      (["a.ts", "b.ts"] : List String).length ∧
      (["a.ts", "b.ts"] : List String).length = 2 ∧ (2 : Nat) ≠ 1) :=
  ⟨rfl,
    runChecks_scans_once_per_file (cycCtx "a.ts" gMutual).architecture rfl
      ["a.ts", "b.ts"] (fun _ => "") (fun _ _ => TsNode.other 0 [])
      (fun _ => false) (fun _ => false),
    rfl, by decide⟩

end ArchGuard
